import Mathlib

/- Verification of the proportional-representation voting library
   `PropAppvl.py` (plain/satisfaction approval tallies, brute-force,
   sequential and eliminative proportional approval voting, and Phragmen's
   method).  All real-number quantities of the source are modelled as
   rationals.  `Rat.add`, `Rat.mul`, `Rat.inv` and `Rat.sub` are restored to
   their default reducibility so that concrete runs of the embedded
   functions can be evaluated by `decide`.

   The guard lines `if not IsBBox(BBox) return None` in `Approval`,
   `SatAppvl` and `SeqPropAppvl` are missing the colon Python requires;
   they are embedded per their evident intent (`if not IsBBox(BBox):
   return None`), matching the colon-correct guards of the other
   functions. -/

attribute [local semireducible] Rat.add Rat.mul Rat.inv Rat.sub

set_option maxRecDepth 40000

namespace PropAppvlPy

/-- Ballot box, the `(Candidates, Weights of ballots, Ballots)` triple of the
source.  A `Votes` row is indexed by candidate position. -/
structure BBox where
  Cands : List String
  Wts : List ℚ
  Votes : List (List ℚ)

/-- Reserved sentinel label appended to tally outputs (`TotalText = "(Total)"`). -/
def TotalText : String := "(Total)"

/-- Structural validity check `IsBBox`: as many vote rows as weights, and
every vote row as long as the candidate list.  (The source also checks that
the tuple has three components, which the `BBox` structure makes inherent.) -/
def IsBBox (B : BBox) : Bool :=
  (B.Votes.length == B.Wts.length) && B.Votes.all (fun v => v.length == B.Cands.length)

/-- Approval-content check `IsBBoxApproval`: structurally valid and every
individual vote is 0 or 1. -/
def IsBBoxApproval (B : BBox) : Bool :=
  IsBBox B && B.Votes.all (fun v => v.all (fun x => x == 0 || x == 1))

/-- Highest-averages weight `HighAvgWeight(i, f)`; the argument `none` models
the Python divisor `None` (infinite divisor, "Cliff"): weight 1 at `i = 0`
and 0 afterwards.  A finite divisor `f` gives `1/(1 + f*i)`. -/
def HighAvgWeight (i : ℕ) (f : Option ℚ) : ℚ :=
  match f with
  | none => if i = 0 then 1 else 0
  | some fv => 1 / (1 + fv * (i : ℚ))

/-- Highest-averages satisfaction `HighAvgSatisfy(n, f)`: the sum of
`HighAvgWeight(i, f)` for `i` in `range(0, n+1)`. -/
def HighAvgSatisfy (n : ℕ) (f : Option ℚ) : ℚ :=
  ((List.range (n + 1)).map (fun i => HighAvgWeight i f)).sum

/-- Insert an element into a list already sorted by `key` (descending when
`desc = true`), placing it before the first element it does not lose to.
Equal keys keep the original relative order, matching the stability guarantee
of Python `sorted`. -/
def insertBy (key : α → ℚ) (desc : Bool) (x : α) : List α → List α
  | [] => [x]
  | y :: ys =>
    if (if desc then key y ≤ key x else key x ≤ key y) then x :: y :: ys
    else y :: insertBy key desc x ys

/-- Stable sort by `key` (descending when `desc = true`), modelling Python
`sorted(csms, key=itemgetter(1), reverse=desc)`. -/
def sortBy (key : α → ℚ) (desc : Bool) : List α → List α
  | [] => []
  | x :: xs => insertBy key desc x (sortBy key desc xs)

/-- First extremal element of `x :: l`: the first element whose key is
maximal (`desc = true`) or minimal (`desc = false`); ties keep the earliest
element. -/
def pickFirst1 (key : α → ℚ) (desc : Bool) : α → List α → α
  | x, [] => x
  | x, y :: ys =>
    if (if desc then key x < key (pickFirst1 key desc y ys)
        else key (pickFirst1 key desc y ys) < key x) then pickFirst1 key desc y ys
    else x

/-- Three-way zip, modelling Python `zip(a, b, c)` (truncates to the
shortest input). -/
def zip3 : List α → List β → List γ → List (α × β × γ)
  | a :: la, b :: lb, c :: lc => (a, b, c) :: zip3 la lb lc
  | _, _, _ => []

/-- Index `i` points at the first maximal (when `desc = true`) or first
minimal (otherwise) entry of `scores`: every entry is tied-or-beaten by entry
`i`, and every earlier entry is strictly beaten.  This is the index selected
by reading the head of a stable sort of the scored candidates. -/
def FirstBestIdx (desc : Bool) (scores : List ℚ) (i : ℕ) : Prop :=
  i < scores.length ∧
  (∀ j, j < scores.length →
    (if desc then scores.getD j 0 ≤ scores.getD i 0 else scores.getD i 0 ≤ scores.getD j 0)) ∧
  (∀ j, j < i →
    (if desc then scores.getD j 0 < scores.getD i 0 else scores.getD i 0 < scores.getD j 0))

instance (desc : Bool) (scores : List ℚ) (i : ℕ) : Decidable (FirstBestIdx desc scores i) := by
  unfold FirstBestIdx
  infer_instance

/-- Per-candidate weighted vote totals: entry `ix` is the sum over ballots of
`weight * vote[ix]` (the `Sums` accumulation loop of `Approval`, also used
for the voting-power denominators of `Phragmen`).  For valid boxes every row
has length `n`, so the `getD` default is never taken. -/
def candSums (Wts : List ℚ) (Votes : List (List ℚ)) (n : ℕ) : List ℚ :=
  (List.range n).map (fun ix => ((Wts.zip Votes).map (fun wv => wv.1 * wv.2.getD ix 0)).sum)

/-- Approval voting tally `Approval(BBox)`: `None` on a structurally invalid
box, otherwise the candidates paired with their weighted vote sums, sorted by
descending sum (stably, so ties keep candidate order), with the sentinel
`(TotalText, sum of weights)` appended last. -/
def Approval (B : BBox) : Option (List (String × ℚ)) :=
  if IsBBox B then
    some (sortBy (fun cs => cs.2) true (B.Cands.zip (candSums B.Wts B.Votes B.Cands.length))
      ++ [(TotalText, B.Wts.sum)])
  else none

/-- Satisfaction approval voting `SatAppvl(BBox)`: rescales each ballot weight
by that ballot's vote sum (`wt/VoteSum if VoteSum != 0 else 0`) and delegates
to `Approval` on the rescaled box. -/
def SatAppvl (B : BBox) : Option (List (String × ℚ)) :=
  if IsBBox B then
    Approval ⟨B.Cands,
      (B.Wts.zip B.Votes).map (fun wv => if wv.2.sum ≠ 0 then wv.1 / wv.2.sum else 0),
      B.Votes⟩
  else none

/-- Rescaled ballot weights as the spec words them (section 4.3): each
ballot weight divided by that ballot's own vote-row sum, with rescaled
weight 0 when the row sums to zero.  Stated for comparison with the
rescaling computed inside `SatAppvl`. -/
def specRescaledWts (B : BBox) : List ℚ :=
  List.zipWith (fun wt v => if v.sum = 0 then 0 else wt / v.sum) B.Wts B.Votes

/-- Combinations of elements of `l` taken `k` at a time, in the order
produced by Python `itertools.combinations` (positions are emitted in
lexicographic order, each combination listed in input order). -/
def combinations : List ℕ → ℕ → List (List ℕ)
  | _, 0 => [[]]
  | [], _ + 1 => []
  | x :: xs, k + 1 => (combinations xs k).map (fun c => x :: c) ++ combinations xs (k + 1)

/-- Total satisfaction of seating the candidate index combination `ixs`:
`Σ_ballots wt * SatFunc(Σ_{ix ∈ ixs} vote[ix])` (the inner loop of
`PropAppvl`). -/
def SumSats (SatFunc : ℚ → ℚ) (Wts : List ℚ) (Votes : List (List ℚ)) (ixs : List ℕ) : ℚ :=
  ((Wts.zip Votes).map (fun wv => wv.1 * SatFunc ((ixs.map (fun ix => wv.2.getD ix 0)).sum))).sum

/-- Brute-force proportional approval voting `PropAppvl(BBox, SatFunc, NSeats)`.
`None` unless the box is a valid approval box and `NSeats <= NCands`;
otherwise scans all combinations in order, keeping the first one whose total
satisfaction is strictly greater than the current best (so the first
combination attaining the maximum wins), and returns its candidates.  The
`[]` branch of the match is unreachable because `NSeats <= NCands` guarantees
at least one combination. -/
def PropAppvl (B : BBox) (SatFunc : ℚ → ℚ) (NSeats : ℕ) : Option (List String) :=
  if IsBBoxApproval B then
    if NSeats ≤ B.Cands.length then
      match combinations (List.range B.Cands.length) NSeats with
      | [] => none
      | c :: cs =>
        some ((cs.foldl (fun best d =>
            if SumSats SatFunc B.Wts B.Votes best < SumSats SatFunc B.Wts B.Votes d then d
            else best) c).map (fun ix => B.Cands.getD ix ""))
    else none
  else none

/-- Working state of `SeqPropAppvl`: the remaining candidates, the vote rows
restricted to them, and the per-ballot cumulative victory counts `Victs`. -/
structure SeqState where
  Cands : List String
  Votes : List (List ℚ)
  Victs : List ℚ

/-- Per-round scores of `SeqPropAppvl`: entry `ix` is
`Σ_ballots wt * WtFunc(victories) * vote[ix]` (the `Sums` accumulation with
`adjwt = wt*WtFunc(vc)`). -/
def seqScores (WtFunc : ℚ → ℚ) (Wts : List ℚ) (st : SeqState) : List ℚ :=
  (List.range st.Cands.length).map (fun ix =>
    ((zip3 Wts st.Victs st.Votes).map (fun t => t.1 * WtFunc t.2.1 * t.2.2.getD ix 0)).sum)

/-- One round of `SeqPropAppvl`: sort the scored candidates descending, read
the winner (and its index) from the head, record the sorted scores plus the
weighted-total sentinel, add each ballot's vote for the winner to its victory
count, and delete the winner from the candidate list and from every row.
Returns the round result, the winner's index and the next state. -/
def seqRound (WtFunc : ℚ → ℚ) (Wts : List ℚ) (st : SeqState) :
    List (String × ℚ) × ℕ × SeqState :=
  let n := st.Cands.length
  let Sums := seqScores WtFunc Wts st
  let TotWts := ((zip3 Wts st.Victs st.Votes).map (fun t => t.1 * WtFunc t.2.1)).sum
  let csms := sortBy (fun x => x.1.2) true ((st.Cands.zip Sums).zip (List.range n))
  let mxix := (csms.head?.map (fun x => x.2)).getD 0
  (csms.map (fun x => x.1) ++ [(TotalText, TotWts)], mxix,
    ⟨st.Cands.eraseIdx mxix, st.Votes.map (fun v => v.eraseIdx mxix),
      (st.Victs.zip st.Votes).map (fun p => p.1 + p.2.getD mxix 0)⟩)

/-- Initial `SeqPropAppvl` state: all candidates, all rows, zero victories. -/
def seqInit (B : BBox) : SeqState :=
  ⟨B.Cands, B.Votes, List.replicate B.Wts.length 0⟩

/-- State of `SeqPropAppvl` before round `r` (0-based). -/
def seqStateAt (WtFunc : ℚ → ℚ) (Wts : List ℚ) (st : SeqState) : ℕ → SeqState
  | 0 => st
  | r + 1 => (seqRound WtFunc Wts (seqStateAt WtFunc Wts st r)).2.2

/-- The remaining `n` rounds of `SeqPropAppvl` starting from state `st`. -/
def seqRunAux (WtFunc : ℚ → ℚ) (Wts : List ℚ) : ℕ → SeqState → List (List (String × ℚ))
  | 0, _ => []
  | r + 1, st =>
    (seqRound WtFunc Wts st).1 :: seqRunAux WtFunc Wts r (seqRound WtFunc Wts st).2.2

/-- Sequential proportional approval voting `SeqPropAppvl(BBox, WtFunc)`:
`None` on a structurally invalid box, else `NCands` rounds of reweighted
winner selection. -/
def SeqPropAppvl (B : BBox) (WtFunc : ℚ → ℚ) : Option (List (List (String × ℚ))) :=
  if IsBBox B then some (seqRunAux WtFunc B.Wts B.Cands.length (seqInit B)) else none

/-- Per-round scores of `ElimPropAppvl`: entry `ix` is
`Σ_ballots wt * SatFunc(sum(vts[:ix]) + sum(vts[ix+1:]))`, the total
satisfaction the electorate would have were candidate `ix` removed from the
remaining set. -/
def elimScores (SatFunc : ℚ → ℚ) (Wts : List ℚ) (Votes : List (List ℚ)) (n : ℕ) : List ℚ :=
  (List.range n).map (fun ix =>
    ((Wts.zip Votes).map (fun wv =>
      wv.1 * SatFunc ((wv.2.take ix).sum + (wv.2.drop (ix + 1)).sum))).sum)

/-- One round of `ElimPropAppvl` on the remaining `(Cands, Votes)` working
copy: sort the scored candidates by score (descending iff `SortDir`), read
the eliminated candidate's index from the head, record the sorted scores plus
the `(TotalText, TotWts)` sentinel, and delete that candidate from the
candidate list and from every row. -/
def elimRound (SatFunc : ℚ → ℚ) (SortDir : Bool) (Wts : List ℚ) (TotWts : ℚ)
    (cv : List String × List (List ℚ)) :
    List (String × ℚ) × ℕ × (List String × List (List ℚ)) :=
  let n := cv.1.length
  let Sums := elimScores SatFunc Wts cv.2 n
  let csms := sortBy (fun x => x.1.2) SortDir ((cv.1.zip Sums).zip (List.range n))
  let mxix := (csms.head?.map (fun x => x.2)).getD 0
  (csms.map (fun x => x.1) ++ [(TotalText, TotWts)], mxix,
    (cv.1.eraseIdx mxix, cv.2.map (fun v => v.eraseIdx mxix)))

/-- Working copy of `ElimPropAppvl` before round `r` (0-based). -/
def elimStateAt (SatFunc : ℚ → ℚ) (SortDir : Bool) (Wts : List ℚ) (TotWts : ℚ)
    (cv : List String × List (List ℚ)) : ℕ → List String × List (List ℚ)
  | 0 => cv
  | r + 1 => (elimRound SatFunc SortDir Wts TotWts
      (elimStateAt SatFunc SortDir Wts TotWts cv r)).2.2

/-- The remaining `n` rounds of `ElimPropAppvl` from working copy `cv`. -/
def elimRunAux (SatFunc : ℚ → ℚ) (SortDir : Bool) (Wts : List ℚ) (TotWts : ℚ) :
    ℕ → List String × List (List ℚ) → List (List (String × ℚ))
  | 0, _ => []
  | r + 1, cv =>
    (elimRound SatFunc SortDir Wts TotWts cv).1 ::
      elimRunAux SatFunc SortDir Wts TotWts r (elimRound SatFunc SortDir Wts TotWts cv).2.2

/-- Eliminative proportional approval voting
`ElimPropAppvl(BBox, SatFunc, SortDir)`: `None` unless the box is a valid
approval box, else `NCands` rounds each deleting the head of the sorted
"satisfaction without this candidate" scores (`SortDir` is the Python
`reverse` flag of the sort). -/
def ElimPropAppvl (B : BBox) (SatFunc : ℚ → ℚ) (SortDir : Bool) :
    Option (List (List (String × ℚ))) :=
  if IsBBoxApproval B then
    some (elimRunAux SatFunc SortDir B.Wts B.Wts.sum B.Cands.length (B.Cands, B.Votes))
  else none

/-- Working state of `Phragmen`: remaining candidates, their vote columns,
the surviving voting-power denominator reciprocals `vdrcp`, and the
per-ballot loads `bloads`. -/
structure PhrState where
  Cands : List String
  Votes : List (List ℚ)
  vdrcp : List ℚ
  bloads : List ℚ

/-- Voting powers of the remaining candidates: candidate `k` gets
`vdrcp[k] * (1 + Σ_ballots load*weight*vote[k])` (the `vpnum`/`vpwr`
computation of the source, with `vpwr = rd*nm`). -/
def phrPowers (Wts : List ℚ) (st : PhrState) : List ℚ :=
  (((List.range st.Cands.length).map (fun k =>
      1 + ((zip3 st.bloads Wts st.Votes).map (fun t => t.1 * t.2.1 * t.2.2.getD k 0)).sum)).zip
    st.vdrcp).map (fun p => p.2 * p.1)

/-- One round of `Phragmen`: sort candidates by voting power ascending, read
the winner (index and power) from the head, set the load of every ballot that
approves the winner to the winning power (others keep their load), record the
reciprocal powers plus the weight-total sentinel, and delete the winner from
the candidate list, the reciprocal list and every row.  Returns the round
result, the winner's index, the winning power and the next state. -/
def phrRound (Wts : List ℚ) (TotWts : ℚ) (st : PhrState) :
    List (String × ℚ) × ℕ × ℚ × PhrState :=
  let n := st.Cands.length
  let vpwr := phrPowers Wts st
  let csms := sortBy (fun x => x.1.2) false ((st.Cands.zip vpwr).zip (List.range n))
  let mnix := (csms.head?.map (fun x => x.2)).getD 0
  let mnvp : ℚ := (csms.head?.map (fun x => x.1.2)).getD 0
  let bloads2 : List ℚ :=
    (st.Votes.zip st.bloads).map (fun p => if p.1.getD mnix (0 : ℚ) = 0 then p.2 else mnvp)
  (csms.map (fun x => (x.1.1, 1 / x.1.2)) ++ [(TotalText, TotWts)], mnix, mnvp,
    ⟨st.Cands.eraseIdx mnix, st.Votes.map (fun v => v.eraseIdx mnix),
      st.vdrcp.eraseIdx mnix, bloads2⟩)

/-- Initial `Phragmen` state from the precomputed reciprocals. -/
def phrInit (B : BBox) (rcps : List ℚ) : PhrState :=
  ⟨B.Cands, B.Votes, rcps, List.replicate B.Wts.length 0⟩

/-- State of `Phragmen` before round `r` (0-based). -/
def phrStateAt (Wts : List ℚ) (TotWts : ℚ) (st : PhrState) : ℕ → PhrState
  | 0 => st
  | r + 1 => (phrRound Wts TotWts (phrStateAt Wts TotWts st r)).2.2.2

/-- The remaining `n` rounds of `Phragmen` from state `st`. -/
def phrRunAux (Wts : List ℚ) (TotWts : ℚ) : ℕ → PhrState → List (List (String × ℚ))
  | 0, _ => []
  | r + 1, st =>
    (phrRound Wts TotWts st).1 :: phrRunAux Wts TotWts r (phrRound Wts TotWts st).2.2.2

/-- Phragmen's sequential method `Phragmen(BBox)`: `None` unless the box is a
valid approval box.  The source then computes the per-candidate reciprocals
`[1/float(x) for x in vpdnm]`, which raises an unhandled `ZeroDivisionError`
whenever some candidate's total weighted approval is zero; that fault is
modelled by returning `none`.  Otherwise runs `NCands` load-balancing rounds. -/
def Phragmen (B : BBox) : Option (List (List (String × ℚ))) :=
  if IsBBoxApproval B then
    let vpdnm := candSums B.Wts B.Votes B.Cands.length
    if vpdnm.any (fun x => x == 0) then none
    else
      some (phrRunAux B.Wts B.Wts.sum B.Cands.length (phrInit B (vpdnm.map (fun x => 1 / x))))
  else none

/-- Approval ballot box of the PAV example (`CLPAV` in the source):
ballots `(5, {A,B}), (17, {A,C}), (8, {D})` converted by `CandListsToBBox`,
which sorts the candidate identifiers, giving candidate order `(A, B, C, D)`. -/
def wikiPAVBox : BBox :=
  ⟨["A", "B", "C", "D"], [5, 17, 8], [[1, 1, 0, 0], [1, 0, 1, 0], [0, 0, 0, 1]]⟩

/-- Flat satisfaction function (divisor 0), as passed by the source driver
(`lambda n: HighAvgSatisfy(n, fac)` with `fac = 0`); on approval boxes the
argument is always a non-negative integer count, extracted by `.num.toNat`. -/
def satFlat : ℚ → ℚ := fun q => HighAvgSatisfy q.num.toNat (some 0)

/-- D'Hondt highest-averages weight function (divisor 1), as passed by the
source driver (`lambda n: HighAvgWeight(n, fac)` with `fac = 1`); the
argument is a non-negative victory count, extracted by `.num.toNat`. -/
def wtDH : ℚ → ℚ := fun q => HighAvgWeight q.num.toNat (some 1)

/-- Small valid approval box whose single ballot approves only candidate A,
so candidate B has zero total weighted approval. -/
def zeroSupportBox : BBox := ⟨["A", "B"], [1], [[1, 0]]⟩

/- Lemma library: the head of a stable sort is the first extremal element. -/

theorem insertBy_perm (key : α → ℚ) (desc : Bool) (x : α) (l : List α) :
    (insertBy key desc x l).Perm (x :: l) := by
  induction l with
  | nil => exact List.Perm.refl _
  | cons y ys ih =>
    unfold insertBy
    by_cases h : (if desc then key y ≤ key x else key x ≤ key y)
    · rw [if_pos h]
    · rw [if_neg h]
      exact (ih.cons y).trans (List.Perm.swap x y ys)

theorem sortBy_perm (key : α → ℚ) (desc : Bool) (l : List α) :
    (sortBy key desc l).Perm l := by
  induction l with
  | nil => exact List.Perm.refl _
  | cons x xs ih => exact (insertBy_perm key desc x _).trans (ih.cons x)

theorem head?_insertBy (key : α → ℚ) (desc : Bool) (x y : α) (ys : List α) :
    (insertBy key desc x (y :: ys)).head? =
      some (if (if desc then key y ≤ key x else key x ≤ key y) then x else y) := by
  unfold insertBy
  by_cases h : (if desc then key y ≤ key x else key x ≤ key y)
  · rw [if_pos h, if_pos h]
    rfl
  · rw [if_neg h, if_neg h]
    rfl

theorem ite_cond_true (a b : α) : (if (true : Bool) = true then a else b) = a := rfl

theorem ite_cond_false (a b : α) : (if (false : Bool) = true then a else b) = b := rfl

theorem sortBy_head_cons (key : α → ℚ) (desc : Bool) :
    ∀ (l : List α) (x : α), (sortBy key desc (x :: l)).head? = some (pickFirst1 key desc x l) := by
  intro l
  induction l with
  | nil => intro x; rfl
  | cons y ys ih =>
    intro x
    show (insertBy key desc x (sortBy key desc (y :: ys))).head? = _
    cases hs : sortBy key desc (y :: ys) with
    | nil =>
      have h2 := ih y
      rw [hs] at h2
      exact absurd h2 (by simp)
    | cons h t =>
      have hh : h = pickFirst1 key desc y ys := by
        have h2 := ih y
        rw [hs] at h2
        simpa using h2
      have hred : pickFirst1 key desc x (y :: ys) =
          if (if desc then key x < key (pickFirst1 key desc y ys)
              else key (pickFirst1 key desc y ys) < key x) then pickFirst1 key desc y ys
          else x := rfl
      rw [head?_insertBy, hred, ← hh]
      cases desc with
      | true =>
        by_cases hc : key x < key h
        · simp [hc, not_le_of_lt hc]
        · simp [hc, le_of_not_lt hc]
      | false =>
        by_cases hc : key h < key x
        · simp [hc, not_le_of_lt hc]
        · simp [hc, le_of_not_lt hc]

theorem pickFirst1_spec_desc (key : α → ℚ) :
    ∀ (l : List α) (x : α),
    ∃ i, ∃ hi : i < (x :: l).length, (x :: l).get ⟨i, hi⟩ = pickFirst1 key true x l ∧
      (∀ j (hj : j < (x :: l).length),
        key ((x :: l).get ⟨j, hj⟩) ≤ key (pickFirst1 key true x l)) ∧
      (∀ j (hj : j < (x :: l).length), j < i →
        key ((x :: l).get ⟨j, hj⟩) < key (pickFirst1 key true x l)) := by
  intro l
  induction l with
  | nil =>
    intro x
    refine ⟨0, by simp, rfl, ?_, ?_⟩
    · intro j hj
      cases j with
      | zero => exact le_refl _
      | succ j2 => simp at hj
    · intro j hj hji
      omega
  | cons y ys ih =>
    intro x
    rcases ih y with ⟨i1, hi1, hget1, hmax1, hstrict1⟩
    have hred : pickFirst1 key true x (y :: ys) =
        if key x < key (pickFirst1 key true y ys) then pickFirst1 key true y ys else x := rfl
    rw [hred]
    by_cases hc : key x < key (pickFirst1 key true y ys)
    · rw [if_pos hc]
      refine ⟨i1 + 1, by simpa using Nat.succ_lt_succ hi1, by simpa using hget1, ?_, ?_⟩
      · intro j hj
        cases j with
        | zero => exact le_of_lt hc
        | succ j2 => exact hmax1 j2 (Nat.lt_of_succ_lt_succ hj)
      · intro j hj hji
        cases j with
        | zero => exact hc
        | succ j2 => exact hstrict1 j2 (Nat.lt_of_succ_lt_succ hj) (Nat.lt_of_succ_lt_succ hji)
    · rw [if_neg hc]
      refine ⟨0, by simp, rfl, ?_, ?_⟩
      · intro j hj
        cases j with
        | zero => exact le_refl _
        | succ j2 =>
          exact le_trans (hmax1 j2 (Nat.lt_of_succ_lt_succ hj)) (le_of_not_lt hc)
      · intro j hj hji
        omega

theorem pickFirst1_spec_asc (key : α → ℚ) :
    ∀ (l : List α) (x : α),
    ∃ i, ∃ hi : i < (x :: l).length, (x :: l).get ⟨i, hi⟩ = pickFirst1 key false x l ∧
      (∀ j (hj : j < (x :: l).length),
        key (pickFirst1 key false x l) ≤ key ((x :: l).get ⟨j, hj⟩)) ∧
      (∀ j (hj : j < (x :: l).length), j < i →
        key (pickFirst1 key false x l) < key ((x :: l).get ⟨j, hj⟩)) := by
  intro l
  induction l with
  | nil =>
    intro x
    refine ⟨0, by simp, rfl, ?_, ?_⟩
    · intro j hj
      cases j with
      | zero => exact le_refl _
      | succ j2 => simp at hj
    · intro j hj hji
      omega
  | cons y ys ih =>
    intro x
    rcases ih y with ⟨i1, hi1, hget1, hmin1, hstrict1⟩
    have hred : pickFirst1 key false x (y :: ys) =
        if key (pickFirst1 key false y ys) < key x then pickFirst1 key false y ys else x := rfl
    rw [hred]
    by_cases hc : key (pickFirst1 key false y ys) < key x
    · rw [if_pos hc]
      refine ⟨i1 + 1, by simpa using Nat.succ_lt_succ hi1, by simpa using hget1, ?_, ?_⟩
      · intro j hj
        cases j with
        | zero => exact le_of_lt hc
        | succ j2 => exact hmin1 j2 (Nat.lt_of_succ_lt_succ hj)
      · intro j hj hji
        cases j with
        | zero => exact hc
        | succ j2 => exact hstrict1 j2 (Nat.lt_of_succ_lt_succ hj) (Nat.lt_of_succ_lt_succ hji)
    · rw [if_neg hc]
      refine ⟨0, by simp, rfl, ?_, ?_⟩
      · intro j hj
        cases j with
        | zero => exact le_refl _
        | succ j2 =>
          exact le_trans (le_of_not_lt hc) (hmin1 j2 (Nat.lt_of_succ_lt_succ hj))
      · intro j hj hji
        omega

theorem sortBy_head_spec (key : α → ℚ) (desc : Bool) (L : List α) (hne : L ≠ []) :
    ∃ m, (sortBy key desc L).head? = some m ∧ ∃ i, ∃ hi : i < L.length, L.get ⟨i, hi⟩ = m ∧
      (∀ j (hj : j < L.length),
        (if desc then key (L.get ⟨j, hj⟩) ≤ key m else key m ≤ key (L.get ⟨j, hj⟩))) ∧
      (∀ j (hj : j < L.length), j < i →
        (if desc then key (L.get ⟨j, hj⟩) < key m else key m < key (L.get ⟨j, hj⟩))) := by
  cases L with
  | nil => exact absurd rfl hne
  | cons x xs =>
    refine ⟨pickFirst1 key desc x xs, sortBy_head_cons key desc xs x, ?_⟩
    cases desc with
    | true =>
      rcases pickFirst1_spec_desc key xs x with ⟨i, hi, hget, hmax, hstrict⟩
      exact ⟨i, hi, hget, fun j hj => by simpa using hmax j hj,
        fun j hj hji => by simpa using hstrict j hj hji⟩
    | false =>
      rcases pickFirst1_spec_asc key xs x with ⟨i, hi, hget, hmin, hstrict⟩
      exact ⟨i, hi, hget, fun j hj => by simpa using hmin j hj,
        fun j hj hji => by simpa using hstrict j hj hji⟩

/-- The head of the stably sorted, index-tagged candidate/score list is the
candidate at the first extremal score index: reading its tag gives that
index, its score is the extremal score, its identifier is the candidate at
the index, and the index satisfies `FirstBestIdx`. -/
theorem roundWinner_spec (desc : Bool) (cands : List String) (scores : List ℚ)
    (hlen : scores.length = cands.length) (hne : cands ≠ []) :
    ∃ i,
      ((sortBy (fun x => x.1.2) desc ((cands.zip scores).zip
          (List.range cands.length))).head?.map (fun x => x.2)).getD 0 = i ∧
      ((sortBy (fun x => x.1.2) desc ((cands.zip scores).zip
          (List.range cands.length))).head?.map (fun x => x.1.2)).getD 0 = scores.getD i 0 ∧
      ((sortBy (fun x => x.1.2) desc ((cands.zip scores).zip
          (List.range cands.length))).head?.map (fun x => x.1.1)).getD "" = cands.getD i "" ∧
      FirstBestIdx desc scores i := by
  have hclen : 0 < cands.length := List.length_pos.mpr hne
  have hzlen : ((cands.zip scores).zip (List.range cands.length)).length = cands.length := by
    simp [List.length_zip, hlen]
  have hLne : (cands.zip scores).zip (List.range cands.length) ≠ [] := by
    intro hL
    rw [hL] at hzlen
    simp at hzlen
    omega
  have hLget : ∀ j (hj : j < ((cands.zip scores).zip (List.range cands.length)).length),
      ((cands.zip scores).zip (List.range cands.length)).get ⟨j, hj⟩ =
        ((cands.getD j "", scores.getD j 0), j) := by
    intro j hj
    have hj1 : j < cands.length := by omega
    have hj2 : j < scores.length := by omega
    have hj3 : j < (cands.zip scores).length := by simp [List.length_zip]; omega
    have h1 : ((cands.zip scores).zip (List.range cands.length)).get ⟨j, hj⟩ =
        ((cands.zip scores).get ⟨j, hj3⟩, (List.range cands.length).get ⟨j, by simpa using hj1⟩) := by
      simp [List.get_eq_getElem, List.getElem_zip]
    rw [h1]
    have h2 : (cands.zip scores).get ⟨j, hj3⟩ = (cands.get ⟨j, hj1⟩, scores.get ⟨j, hj2⟩) := by
      simp [List.get_eq_getElem, List.getElem_zip]
    rw [h2]
    rw [List.get_eq_getElem, List.get_eq_getElem, List.get_eq_getElem, List.getElem_range]
    rw [List.getD_eq_getElem cands "" hj1, List.getD_eq_getElem scores 0 hj2]
  rcases sortBy_head_spec (fun x => x.1.2) desc _ hLne with ⟨m, hhead, i, hi, hget, hcmp, hstrict⟩
  have him : m = ((cands.getD i "", scores.getD i 0), i) := by rw [← hLget i hi, hget]
  refine ⟨i, ?_, ?_, ?_, ?_, ?_, ?_⟩
  · rw [hhead, him]
    rfl
  · rw [hhead, him]
    rfl
  · rw [hhead, him]
    rfl
  · omega
  · intro j hj
    have hjL : j < ((cands.zip scores).zip (List.range cands.length)).length := by omega
    have := hcmp j hjL
    rw [hLget j hjL, him] at this
    exact this
  · intro j hj
    have hiL : i < scores.length := by omega
    have hjL : j < ((cands.zip scores).zip (List.range cands.length)).length := by omega
    have := hstrict j hjL hj
    rw [hLget j hjL, him] at this
    exact this

theorem zipIdx_get (cands : List String) (scores : List ℚ)
    (hlen : scores.length = cands.length)
    (j : ℕ) (hj : j < ((cands.zip scores).zip (List.range cands.length)).length) :
    ((cands.zip scores).zip (List.range cands.length)).get ⟨j, hj⟩ =
      ((cands.getD j "", scores.getD j 0), j) := by
  have hzlen : ((cands.zip scores).zip (List.range cands.length)).length = cands.length := by
    simp [List.length_zip, hlen]
  have hj1 : j < cands.length := by omega
  have hj2 : j < scores.length := by omega
  have hj3 : j < (cands.zip scores).length := by simp [List.length_zip]; omega
  have h1 : ((cands.zip scores).zip (List.range cands.length)).get ⟨j, hj⟩ =
      ((cands.zip scores).get ⟨j, hj3⟩, (List.range cands.length).get ⟨j, by simpa using hj1⟩) := by
    simp [List.get_eq_getElem, List.getElem_zip]
  rw [h1]
  have h2 : (cands.zip scores).get ⟨j, hj3⟩ = (cands.get ⟨j, hj1⟩, scores.get ⟨j, hj2⟩) := by
    simp [List.get_eq_getElem, List.getElem_zip]
  rw [h2]
  rw [List.get_eq_getElem, List.get_eq_getElem, List.get_eq_getElem, List.getElem_range]
  rw [List.getD_eq_getElem cands "" hj1, List.getD_eq_getElem scores 0 hj2]

/-- Every remaining candidate appears, paired with its score, among the
non-sentinel entries of a sorted round result. -/
theorem sorted_zip_mem (desc : Bool) (cands : List String) (scores : List ℚ)
    (hlen : scores.length = cands.length) (ix : ℕ) (hix : ix < cands.length) :
    (cands.getD ix "", scores.getD ix 0) ∈
      (sortBy (fun x => x.1.2) desc ((cands.zip scores).zip (List.range cands.length))).map
        (fun x => x.1) := by
  have hzlen : ((cands.zip scores).zip (List.range cands.length)).length = cands.length := by
    simp [List.length_zip, hlen]
  have hixL : ix < ((cands.zip scores).zip (List.range cands.length)).length := by omega
  have hmem : ((cands.getD ix "", scores.getD ix 0), ix) ∈
      (cands.zip scores).zip (List.range cands.length) := by
    rw [← zipIdx_get cands scores hlen ix hixL]
    exact List.get_mem _ ix hixL
  have hmem2 : ((cands.getD ix "", scores.getD ix 0), ix) ∈
      sortBy (fun x => x.1.2) desc ((cands.zip scores).zip (List.range cands.length)) :=
    ((sortBy_perm _ desc _).mem_iff).mpr hmem
  exact List.mem_map_of_mem (fun x => x.1) hmem2

/- Round correctness and length bookkeeping for the sequential engines. -/

theorem seqScores_length (WtFunc : ℚ → ℚ) (Wts : List ℚ) (st : SeqState) :
    (seqScores WtFunc Wts st).length = st.Cands.length := by
  simp [seqScores]

theorem seqRound_winner (WtFunc : ℚ → ℚ) (Wts : List ℚ) (st : SeqState)
    (hne : st.Cands ≠ []) :
    FirstBestIdx true (seqScores WtFunc Wts st) (seqRound WtFunc Wts st).2.1 := by
  rcases roundWinner_spec true st.Cands (seqScores WtFunc Wts st)
      (seqScores_length WtFunc Wts st) hne with ⟨i, hix, hval, hcand, hfb⟩
  have hdef : (seqRound WtFunc Wts st).2.1 =
      ((sortBy (fun x => x.1.2) true ((st.Cands.zip (seqScores WtFunc Wts st)).zip
        (List.range st.Cands.length))).head?.map (fun x => x.2)).getD 0 := rfl
  rw [hdef, hix]
  exact hfb

theorem seqRound_mxix_lt (WtFunc : ℚ → ℚ) (Wts : List ℚ) (st : SeqState)
    (hne : st.Cands ≠ []) : (seqRound WtFunc Wts st).2.1 < st.Cands.length := by
  have h := (seqRound_winner WtFunc Wts st hne).1
  rw [seqScores_length] at h
  exact h

theorem seqRound_next_length (WtFunc : ℚ → ℚ) (Wts : List ℚ) (st : SeqState)
    (hne : st.Cands ≠ []) :
    (seqRound WtFunc Wts st).2.2.Cands.length + 1 = st.Cands.length := by
  have hlt := seqRound_mxix_lt WtFunc Wts st hne
  have hdef : (seqRound WtFunc Wts st).2.2.Cands =
      st.Cands.eraseIdx (seqRound WtFunc Wts st).2.1 := rfl
  rw [hdef, List.length_eraseIdx, if_pos hlt]
  omega

theorem seqStateAt_length (WtFunc : ℚ → ℚ) (Wts : List ℚ) (st : SeqState)
    (r : ℕ) (hr : r ≤ st.Cands.length) :
    (seqStateAt WtFunc Wts st r).Cands.length = st.Cands.length - r := by
  induction r with
  | zero => rfl
  | succ r2 ih =>
    have hr2 : r2 ≤ st.Cands.length := by omega
    have hlen2 := ih hr2
    have hne : (seqStateAt WtFunc Wts st r2).Cands ≠ [] := by
      intro hempty
      rw [hempty] at hlen2
      simp at hlen2
      omega
    have hstep := seqRound_next_length WtFunc Wts (seqStateAt WtFunc Wts st r2) hne
    show (seqRound WtFunc Wts (seqStateAt WtFunc Wts st r2)).2.2.Cands.length = _
    omega

theorem elimScores_length (SatFunc : ℚ → ℚ) (Wts : List ℚ) (Votes : List (List ℚ)) (n : ℕ) :
    (elimScores SatFunc Wts Votes n).length = n := by
  simp [elimScores]

theorem elimRound_winner (SatFunc : ℚ → ℚ) (SortDir : Bool) (Wts : List ℚ) (TotWts : ℚ)
    (cv : List String × List (List ℚ)) (hne : cv.1 ≠ []) :
    FirstBestIdx SortDir (elimScores SatFunc Wts cv.2 cv.1.length)
      (elimRound SatFunc SortDir Wts TotWts cv).2.1 := by
  rcases roundWinner_spec SortDir cv.1 (elimScores SatFunc Wts cv.2 cv.1.length)
      (elimScores_length SatFunc Wts cv.2 cv.1.length) hne with ⟨i, hix, hval, hcand, hfb⟩
  have hdef : (elimRound SatFunc SortDir Wts TotWts cv).2.1 =
      ((sortBy (fun x => x.1.2) SortDir ((cv.1.zip (elimScores SatFunc Wts cv.2 cv.1.length)).zip
        (List.range cv.1.length))).head?.map (fun x => x.2)).getD 0 := rfl
  rw [hdef, hix]
  exact hfb

theorem elimRound_mxix_lt (SatFunc : ℚ → ℚ) (SortDir : Bool) (Wts : List ℚ) (TotWts : ℚ)
    (cv : List String × List (List ℚ)) (hne : cv.1 ≠ []) :
    (elimRound SatFunc SortDir Wts TotWts cv).2.1 < cv.1.length := by
  have h := (elimRound_winner SatFunc SortDir Wts TotWts cv hne).1
  rw [elimScores_length] at h
  exact h

theorem elimRound_next_length (SatFunc : ℚ → ℚ) (SortDir : Bool) (Wts : List ℚ) (TotWts : ℚ)
    (cv : List String × List (List ℚ)) (hne : cv.1 ≠ []) :
    (elimRound SatFunc SortDir Wts TotWts cv).2.2.1.length + 1 = cv.1.length := by
  have hlt := elimRound_mxix_lt SatFunc SortDir Wts TotWts cv hne
  have hdef : (elimRound SatFunc SortDir Wts TotWts cv).2.2.1 =
      cv.1.eraseIdx (elimRound SatFunc SortDir Wts TotWts cv).2.1 := rfl
  rw [hdef, List.length_eraseIdx, if_pos hlt]
  omega

theorem elimStateAt_length (SatFunc : ℚ → ℚ) (SortDir : Bool) (Wts : List ℚ) (TotWts : ℚ)
    (cv : List String × List (List ℚ)) (r : ℕ) (hr : r ≤ cv.1.length) :
    (elimStateAt SatFunc SortDir Wts TotWts cv r).1.length = cv.1.length - r := by
  induction r with
  | zero => rfl
  | succ r2 ih =>
    have hr2 : r2 ≤ cv.1.length := by omega
    have hlen2 := ih hr2
    have hne : (elimStateAt SatFunc SortDir Wts TotWts cv r2).1 ≠ [] := by
      intro hempty
      rw [hempty] at hlen2
      simp at hlen2
      omega
    have hstep := elimRound_next_length SatFunc SortDir Wts TotWts
      (elimStateAt SatFunc SortDir Wts TotWts cv r2) hne
    show (elimRound SatFunc SortDir Wts TotWts
      (elimStateAt SatFunc SortDir Wts TotWts cv r2)).2.2.1.length = _
    omega

theorem combinations_zero (l : List ℕ) : combinations l 0 = [[]] := by
  cases l <;> rfl

/- Claim theorems. -/

/-- Claim C3 (counterexample): on the ballot box obtained from ballots
(5,{A,B}), (17,{A,C}), (8,{D}) with candidate order (A,B,C,D), `PropAppvl`
with the flat satisfaction function (divisor 0) and 2 seats does NOT return
the candidate pair {A, D} as the claim states. -/
theorem claim_C3_counterexample :
    IsBBoxApproval wikiPAVBox = true ∧
    PropAppvl wikiPAVBox satFlat 2 ≠ some ["A", "D"] := by
  decide

/-- Claim C3 (amended): on that box, `PropAppvl` with the flat satisfaction
function (divisor 0) and 2 seats returns the candidate pair {A, C}. -/
theorem claim_C3_amended :
    PropAppvl wikiPAVBox satFlat 2 = some ["A", "C"] := by
  decide

/-- Claim C2: the claim describes guarded behaviour that the code does not
implement.  On a structurally valid approval box containing a candidate (B)
with zero total weighted approval, the source evaluates
`[1/float(x) for x in vpdnm]` with `x = 0`, raising an unhandled
`ZeroDivisionError` (modelled by the `none` result): the division fault
propagates instead of the candidate being treated as unselectable. -/
theorem claim_C2_code_bug :
    IsBBoxApproval zeroSupportBox = true ∧
    candSums zeroSupportBox.Wts zeroSupportBox.Votes 2 = [1, 0] ∧
    Phragmen zeroSupportBox = none := by
  decide

/-- Claim C10: for every approval-restricted ballot box and every
satisfaction function, `PropAppvl` with 0 seats returns the empty candidate
tuple (the enumeration consists of exactly the empty combination), not the
failure value. -/
theorem claim_C10_zero_seats (B : BBox) (SatFunc : ℚ → ℚ)
    (h : IsBBoxApproval B = true) : PropAppvl B SatFunc 0 = some [] := by
  unfold PropAppvl
  rw [if_pos h, if_pos (Nat.zero_le _), combinations_zero]
  rfl

/-- Concrete instantiation of `claim_C10_zero_seats` on the PAV example box. -/
theorem claim_C10_zero_seats_witness :
    IsBBoxApproval wikiPAVBox = true ∧ PropAppvl wikiPAVBox satFlat 0 = some [] :=
  ⟨by decide, claim_C10_zero_seats wikiPAVBox satFlat (by decide)⟩

/-- Claim C9: for every valid divisor (a non-negative rational, or the
sentinel `none` meaning an infinite divisor), the satisfaction function is 1
at count 0 and is monotonically non-decreasing in the count. -/
theorem claim_C9_satisfaction (f : Option ℚ) (hf : 0 ≤ f.getD 0) (n : ℕ) :
    HighAvgSatisfy 0 f = 1 ∧ HighAvgSatisfy n f ≤ HighAvgSatisfy (n + 1) f := by
  constructor
  · unfold HighAvgSatisfy
    cases f with
    | none => simp [HighAvgWeight, List.range_succ]
    | some fv => simp [HighAvgWeight, List.range_succ]
  · have hstep : HighAvgSatisfy (n + 1) f = HighAvgSatisfy n f + HighAvgWeight (n + 1) f := by
      unfold HighAvgSatisfy
      rw [List.range_succ, List.map_append, List.sum_append]
      simp
    have hw : 0 ≤ HighAvgWeight (n + 1) f := by
      cases f with
      | none => simp [HighAvgWeight]
      | some fv =>
        have hfv : 0 ≤ fv := by simpa using hf
        have hnc : (0 : ℚ) ≤ ((n + 1 : ℕ) : ℚ) := by positivity
        have hd : (0 : ℚ) < 1 + fv * ((n + 1 : ℕ) : ℚ) := by nlinarith
        unfold HighAvgWeight
        exact div_nonneg (by norm_num) (le_of_lt hd)
    rw [hstep]
    linarith

/-- Concrete instantiation of `claim_C9_satisfaction` at divisor 2, count 3. -/
theorem claim_C9_satisfaction_witness :
    0 ≤ (some (2 : ℚ)).getD 0 ∧
      (HighAvgSatisfy 0 (some 2) = 1 ∧ HighAvgSatisfy 3 (some 2) ≤ HighAvgSatisfy 4 (some 2)) :=
  ⟨by decide, claim_C9_satisfaction (some 2) (by decide) 3⟩

/- Sum-rearrangement helpers and validator unpacking, used for C6 and C7. -/

theorem isBBox_iff (B : BBox) : IsBBox B = true ↔
    B.Votes.length = B.Wts.length ∧ ∀ v ∈ B.Votes, v.length = B.Cands.length := by
  simp [IsBBox, List.all_eq_true]

theorem sum_map_add (l : List α) (f g : α → ℚ) :
    (l.map (fun x => f x + g x)).sum = (l.map f).sum + (l.map g).sum := by
  induction l with
  | nil => simp
  | cons a l2 ih => simp [ih]; ring

theorem sum_commute (l1 : List α) (l2 : List β) (g : α → β → ℚ) :
    (l1.map (fun a => (l2.map (fun b => g a b)).sum)).sum =
    (l2.map (fun b => (l1.map (fun a => g a b)).sum)).sum := by
  induction l1 with
  | nil => simp
  | cons a l1t ih =>
    have h2 : (l2.map (fun b => g a b + (l1t.map (fun a2 => g a2 b)).sum)).sum =
        (l2.map (fun b => g a b)).sum + (l2.map (fun b => (l1t.map (fun a2 => g a2 b)).sum)).sum :=
      sum_map_add l2 _ _
    simp only [List.map_cons, List.sum_cons, ih, h2]

theorem getD_range_sum (v : List ℚ) :
    ((List.range v.length).map (fun ix => v.getD ix 0)).sum = v.sum := by
  induction v with
  | nil => simp
  | cons a t ih =>
    have h1 : List.range (a :: t).length = 0 :: (List.range t.length).map Nat.succ := by
      simpa using List.range_succ_eq_map t.length
    rw [h1]
    simp only [List.map_cons, List.sum_cons, List.map_map]
    have h2 : ((List.range t.length).map (fun ix => (a :: t).getD (Nat.succ ix) 0)).sum =
        ((List.range t.length).map (fun ix => t.getD ix 0)).sum := rfl
    have h3 : (a :: t).getD 0 0 = a := rfl
    rw [h3]
    have h4 : (List.range t.length).map ((fun ix => (a :: t).getD ix 0) ∘ Nat.succ) =
        (List.range t.length).map (fun ix => t.getD ix 0) := rfl
    rw [h4, ih]

/-- Claim C6: for every structurally valid box, the per-candidate scores in
the output of `Approval`, excluding the sentinel entry, sum to
`Σ_ballots weight * (sum of that ballot's vote-row)`, and the sentinel entry
is `(TotalText, Σ weights)`. -/
theorem claim_C6_approval_sums (B : BBox) (h : IsBBox B = true) :
    ∃ res, Approval B = some res ∧
      (res.dropLast.map (fun p => p.2)).sum =
        ((B.Wts.zip B.Votes).map (fun wv => wv.1 * wv.2.sum)).sum ∧
      res.getLastD ("", 0) = (TotalText, B.Wts.sum) := by
  rcases (isBBox_iff B).mp h with ⟨hlen, hrow⟩
  refine ⟨sortBy (fun cs => cs.2) true
      (B.Cands.zip (candSums B.Wts B.Votes B.Cands.length)) ++ [(TotalText, B.Wts.sum)],
    ?_, ?_, ?_⟩
  · unfold Approval
    rw [if_pos h]
  · rw [List.dropLast_concat]
    have hperm : ((sortBy (fun cs => cs.2) true
        (B.Cands.zip (candSums B.Wts B.Votes B.Cands.length))).map (fun p => p.2)).Perm
        ((B.Cands.zip (candSums B.Wts B.Votes B.Cands.length)).map (fun p => p.2)) :=
      (sortBy_perm _ true _).map _
    rw [hperm.sum_eq]
    have hslen : (candSums B.Wts B.Votes B.Cands.length).length ≤ B.Cands.length := by
      simp [candSums]
    have hsnd : (B.Cands.zip (candSums B.Wts B.Votes B.Cands.length)).map (fun p => p.2) =
        candSums B.Wts B.Votes B.Cands.length := by
      have := List.map_snd_zip B.Cands (candSums B.Wts B.Votes B.Cands.length) hslen
      simpa using this
    rw [hsnd]
    unfold candSums
    rw [sum_commute (List.range B.Cands.length) (B.Wts.zip B.Votes)
      (fun ix wv => wv.1 * wv.2.getD ix 0)]
    have hco : ∀ wv ∈ B.Wts.zip B.Votes,
        ((List.range B.Cands.length).map (fun ix => wv.1 * wv.2.getD ix 0)).sum =
          wv.1 * wv.2.sum := by
      intro wv hwv
      have hv : wv.2 ∈ B.Votes := (List.of_mem_zip hwv).2
      have hvl : wv.2.length = B.Cands.length := hrow _ hv
      rw [List.sum_map_mul_left, ← hvl, getD_range_sum]
    have hmapeq : (B.Wts.zip B.Votes).map
          (fun wv => ((List.range B.Cands.length).map (fun ix => wv.1 * wv.2.getD ix 0)).sum) =
        (B.Wts.zip B.Votes).map (fun wv => wv.1 * wv.2.sum) :=
      List.map_congr_left hco
    rw [hmapeq]
  · rw [List.getLastD_concat]

/-- Concrete instantiation of `claim_C6_approval_sums` on the PAV example box. -/
theorem claim_C6_approval_sums_witness :
    IsBBox wikiPAVBox = true ∧
      (∃ res, Approval wikiPAVBox = some res ∧
        (res.dropLast.map (fun p => p.2)).sum =
          ((wikiPAVBox.Wts.zip wikiPAVBox.Votes).map (fun wv => wv.1 * wv.2.sum)).sum ∧
        res.getLastD ("", 0) = (TotalText, wikiPAVBox.Wts.sum)) :=
  ⟨by decide, claim_C6_approval_sums wikiPAVBox (by decide)⟩

theorem rescaled_eq_spec (B : BBox) :
    (B.Wts.zip B.Votes).map (fun wv => if wv.2.sum ≠ 0 then wv.1 / wv.2.sum else 0) =
      specRescaledWts B := by
  unfold specRescaledWts
  rw [← List.map_uncurry_zip_eq_zipWith]
  refine List.map_congr_left ?_
  intro wv hwv
  by_cases hs : wv.2.sum = 0
  · simp [hs, Function.uncurry]
  · simp [hs, Function.uncurry]

theorem rescaled_wts_id : ∀ (ws : List ℚ) (vs : List (List ℚ)),
    ws.length = vs.length → (∀ v ∈ vs, v.sum = 1) →
    (ws.zip vs).map (fun wv => if wv.2.sum ≠ 0 then wv.1 / wv.2.sum else 0) = ws := by
  intro ws
  induction ws with
  | nil => intro vs h hall; simp
  | cons w wt ih =>
    intro vs h hall
    cases vs with
    | nil => simp at h
    | cons v vt =>
      have hv : v.sum = 1 := hall v (by simp)
      simp only [List.zip_cons_cons, List.map_cons]
      rw [ih vt (by simpa using h) (fun u hu => hall u (by simp [hu]))]
      have hval : (if v.sum ≠ 0 then w / v.sum else 0) = w := by
        rw [if_pos (by rw [hv]; norm_num), hv, div_one]
      rw [hval]

/-- Claim C7: for every structurally valid box, `SatAppvl` equals `Approval`
applied to the box whose weights are rescaled as the spec describes (each
weight divided by that ballot's vote-row sum, 0 for a zero-sum row), and on
a box in which every vote-row sums to 1, `SatAppvl` coincides with
`Approval` on the original box. -/
theorem claim_C7_satappvl (B : BBox) (h : IsBBox B = true) :
    SatAppvl B = Approval ⟨B.Cands, specRescaledWts B, B.Votes⟩ ∧
      ((∀ v ∈ B.Votes, v.sum = 1) → SatAppvl B = Approval B) := by
  constructor
  · unfold SatAppvl
    rw [if_pos h, rescaled_eq_spec]
  · intro hall
    unfold SatAppvl
    rw [if_pos h]
    have hlen : B.Wts.length = B.Votes.length := ((isBBox_iff B).mp h).1.symm
    rw [rescaled_wts_id B.Wts B.Votes hlen hall]

/-- Concrete instantiation of `claim_C7_satappvl` on a box where every
ballot approves exactly one candidate. -/
theorem claim_C7_satappvl_witness :
    IsBBox zeroSupportBox = true ∧
      (SatAppvl zeroSupportBox = Approval ⟨zeroSupportBox.Cands, specRescaledWts zeroSupportBox,
          zeroSupportBox.Votes⟩ ∧
        ((∀ v ∈ zeroSupportBox.Votes, v.sum = 1) →
          SatAppvl zeroSupportBox = Approval zeroSupportBox)) :=
  ⟨by decide, claim_C7_satappvl zeroSupportBox (by decide)⟩

/- Properties of the combination enumeration, used for C4. -/

theorem combinations_mem_length :
    ∀ (l : List ℕ) (k : ℕ) (c : List ℕ), c ∈ combinations l k → c.length = k := by
  intro l
  induction l with
  | nil =>
    intro k c hc
    cases k with
    | zero => rw [combinations_zero] at hc; simp at hc; simp [hc]
    | succ k2 => simp [combinations] at hc
  | cons x xs ih =>
    intro k c hc
    cases k with
    | zero => rw [combinations_zero] at hc; simp at hc; simp [hc]
    | succ k2 =>
      rw [show combinations (x :: xs) (k2 + 1) =
        (combinations xs k2).map (fun c2 => x :: c2) ++ combinations xs (k2 + 1) from rfl] at hc
      rcases List.mem_append.mp hc with hc1 | hc2
      · rcases List.mem_map.mp hc1 with ⟨c2, hc2m, hc2e⟩
        rw [← hc2e]
        simp [ih k2 c2 hc2m]
      · exact ih (k2 + 1) c hc2

theorem combinations_sublist :
    ∀ (l : List ℕ) (k : ℕ) (c : List ℕ), c ∈ combinations l k → c.Sublist l := by
  intro l
  induction l with
  | nil =>
    intro k c hc
    cases k with
    | zero => rw [combinations_zero] at hc; simp at hc; simp [hc]
    | succ k2 => simp [combinations] at hc
  | cons x xs ih =>
    intro k c hc
    cases k with
    | zero =>
      rw [combinations_zero] at hc
      simp at hc
      simp [hc]
    | succ k2 =>
      rw [show combinations (x :: xs) (k2 + 1) =
        (combinations xs k2).map (fun c2 => x :: c2) ++ combinations xs (k2 + 1) from rfl] at hc
      rcases List.mem_append.mp hc with hc1 | hc2
      · rcases List.mem_map.mp hc1 with ⟨c2, hc2m, hc2e⟩
        rw [← hc2e]
        exact List.Sublist.cons₂ x (ih k2 c2 hc2m)
      · exact List.Sublist.cons x (ih (k2 + 1) c hc2)

theorem combinations_ne_nil :
    ∀ (l : List ℕ) (k : ℕ), k ≤ l.length → combinations l k ≠ [] := by
  intro l
  induction l with
  | nil =>
    intro k hk
    have hk0 : k = 0 := by simpa using hk
    rw [hk0, combinations_zero]
    simp
  | cons x xs ih =>
    intro k hk
    cases k with
    | zero => rw [combinations_zero]; simp
    | succ k2 =>
      rw [show combinations (x :: xs) (k2 + 1) =
        (combinations xs k2).map (fun c2 => x :: c2) ++ combinations xs (k2 + 1) from rfl]
      intro happ
      rcases List.append_eq_nil.mp happ with ⟨h1, h2⟩
      have hk2 : k2 ≤ xs.length := by simpa using hk
      exact ih k2 hk2 (List.map_eq_nil_iff.mp h1)

theorem combinations_lex_pairwise :
    ∀ (l : List ℕ) (k : ℕ), l.Pairwise (· < ·) →
    (combinations l k).Pairwise (List.Lex (· < ·)) := by
  intro l
  induction l with
  | nil =>
    intro k hp
    cases k with
    | zero => rw [combinations_zero]; simp
    | succ k2 => simp [combinations]
  | cons x xs ih =>
    intro k hp
    have hxlt : ∀ y ∈ xs, x < y := (List.pairwise_cons.mp hp).1
    have hpxs : xs.Pairwise (· < ·) := (List.pairwise_cons.mp hp).2
    cases k with
    | zero => rw [combinations_zero]; simp
    | succ k2 =>
      rw [show combinations (x :: xs) (k2 + 1) =
        (combinations xs k2).map (fun c2 => x :: c2) ++ combinations xs (k2 + 1) from rfl]
      rw [List.pairwise_append]
      refine ⟨?_, ih (k2 + 1) hpxs, ?_⟩
      · refine List.Pairwise.map _ ?_ (ih k2 hpxs)
        intro a b hab
        exact List.Lex.cons hab
      · intro a ha b hb
        rcases List.mem_map.mp ha with ⟨c2, hc2m, hc2e⟩
        cases hbcons : b with
        | nil =>
          have hblen := combinations_mem_length xs (k2 + 1) b hb
          rw [hbcons] at hblen
          simp at hblen
        | cons y b2 =>
          rw [hbcons] at hb
          have hysub : (y :: b2).Sublist xs := combinations_sublist xs (k2 + 1) _ hb
          have hy : y ∈ xs := hysub.mem (by simp)
          rw [← hc2e]
          exact List.Lex.rel (hxlt y hy)

/-- The Python best-combination loop of `PropAppvl`: starting from the first
combination, a later combination replaces the current best exactly when its
total satisfaction is strictly greater; the result is the first element of
the enumeration attaining the maximum. -/
theorem foldl_best_spec (score : List ℕ → ℚ) :
    ∀ (cs : List (List ℕ)) (c : List ℕ),
    ∃ i, i < (c :: cs).length ∧
      cs.foldl (fun best d => if score best < score d then d else best) c = (c :: cs).getD i [] ∧
      (∀ j, j < (c :: cs).length → score ((c :: cs).getD j []) ≤ score ((c :: cs).getD i [])) ∧
      (∀ j, j < i → score ((c :: cs).getD j []) < score ((c :: cs).getD i [])) := by
  intro cs
  induction cs with
  | nil =>
    intro c
    refine ⟨0, by simp, rfl, ?_, ?_⟩
    · intro j hj
      have hj0 : j = 0 := by simpa using hj
      rw [hj0]
    · intro j hj
      omega
  | cons d cs2 ih =>
    intro c
    show ∃ i, i < (c :: d :: cs2).length ∧
      cs2.foldl _ (if score c < score d then d else c) = _ ∧ _
    by_cases hcd : score c < score d
    · rw [if_pos hcd]
      rcases ih d with ⟨i1, hi1, heq1, hmax1, hstrict1⟩
      have hd0 : (d :: cs2).getD 0 [] = d := rfl
      refine ⟨i1 + 1, by simpa using Nat.succ_lt_succ hi1, heq1, ?_, ?_⟩
      · intro j hj
        cases j with
        | zero =>
          have := hmax1 0 (by simp)
          rw [hd0] at this
          exact le_of_lt (lt_of_lt_of_le hcd this)
        | succ j2 => exact hmax1 j2 (by simpa using Nat.lt_of_succ_lt_succ hj)
      · intro j hj
        cases j with
        | zero =>
          have := hmax1 0 (by simp)
          rw [hd0] at this
          exact lt_of_lt_of_le hcd this
        | succ j2 => exact hstrict1 j2 (Nat.lt_of_succ_lt_succ hj)
    · rw [if_neg hcd]
      rcases ih c with ⟨i1, hi1, heq1, hmax1, hstrict1⟩
      have hc0 : (c :: cs2).getD 0 [] = c := rfl
      cases i1 with
      | zero =>
        refine ⟨0, by simp, ?_, ?_, ?_⟩
        · rw [heq1]
          rfl
        · intro j hj
          cases j with
          | zero => exact le_refl _
          | succ j2 =>
            cases j2 with
            | zero =>
              have hcbest := hmax1 0 (by simp)
              rw [hc0] at hcbest
              exact le_trans (le_of_not_lt hcd) hcbest
            | succ j3 =>
              exact hmax1 (j3 + 1) (by simpa using Nat.lt_of_succ_lt_succ hj)
        · intro j hj
          omega
      | succ i2 =>
        refine ⟨i2 + 2, by simpa using Nat.succ_lt_succ hi1, heq1, ?_, ?_⟩
        · intro j hj
          cases j with
          | zero => exact hmax1 0 (by simp)
          | succ j2 =>
            cases j2 with
            | zero =>
              have hcbest := hmax1 0 (by simp)
              rw [hc0] at hcbest
              exact le_trans (le_of_not_lt hcd) hcbest
            | succ j3 => exact hmax1 (j3 + 1) (by simpa using Nat.lt_of_succ_lt_succ hj)
        · intro j hj
          cases j with
          | zero => exact hstrict1 0 (by omega)
          | succ j2 =>
            cases j2 with
            | zero =>
              have hcstrict := hstrict1 0 (by omega)
              rw [hc0] at hcstrict
              exact lt_of_le_of_lt (le_of_not_lt hcd) hcstrict
            | succ j3 => exact hstrict1 (j3 + 1) (by omega)

/-- Claim C4: for every approval-restricted box and `NSeats` at most the
number of candidates, `PropAppvl` returns the combination at the first index
attaining the maximum total satisfaction in the enumeration (which is
strictly increasing in lexicographic order, so this is the lexicographically
first maximiser), rendered as the candidate tuple of its strictly increasing
index list (hence in original relative candidate order); for any seat count
exceeding the candidate count, or any box that is not approval-restricted,
`PropAppvl` returns the failure value. -/
theorem claim_C4_propappvl (B : BBox) (SatFunc : ℚ → ℚ) (NSeats : ℕ)
    (hap : IsBBoxApproval B = true) (hs : NSeats ≤ B.Cands.length) :
    (∃ i, FirstBestIdx true
        ((combinations (List.range B.Cands.length) NSeats).map
          (SumSats SatFunc B.Wts B.Votes)) i ∧
      PropAppvl B SatFunc NSeats =
        some (((combinations (List.range B.Cands.length) NSeats).getD i []).map
          (fun ix => B.Cands.getD ix "")) ∧
      ((combinations (List.range B.Cands.length) NSeats).getD i []).Pairwise (· < ·)) ∧
    List.Pairwise (List.Lex (· < ·)) (combinations (List.range B.Cands.length) NSeats) ∧
    (∀ m, m ≤ B.Cands.length ∨ PropAppvl B SatFunc m = none) ∧
    (∀ B2, IsBBoxApproval B2 = true ∨ PropAppvl B2 SatFunc NSeats = none) := by
  have hnn := combinations_ne_nil (List.range B.Cands.length) NSeats (by simpa using hs)
  constructor
  · cases hcombo : combinations (List.range B.Cands.length) NSeats with
    | nil => exact absurd hcombo hnn
    | cons c cs =>
      rcases foldl_best_spec (SumSats SatFunc B.Wts B.Votes) cs c with ⟨i, hi, heq, hmax, hstrict⟩
      have hPA : PropAppvl B SatFunc NSeats =
          some ((cs.foldl (fun best d =>
            if SumSats SatFunc B.Wts B.Votes best < SumSats SatFunc B.Wts B.Votes d then d
            else best) c).map (fun ix => B.Cands.getD ix "")) := by
        unfold PropAppvl
        rw [if_pos hap, if_pos hs, hcombo]
      have hgd : ∀ j, j < (c :: cs).length →
          ((c :: cs).map (SumSats SatFunc B.Wts B.Votes)).getD j 0 =
            SumSats SatFunc B.Wts B.Votes ((c :: cs).getD j []) := by
        intro j hj
        rw [List.getD_eq_getElem _ _ (by simpa using hj), List.getElem_map,
          List.getD_eq_getElem _ _ hj]
      have hmem : (c :: cs).getD i [] ∈ combinations (List.range B.Cands.length) NSeats := by
        rw [hcombo, List.getD_eq_getElem _ _ hi]
        exact List.getElem_mem _
      refine ⟨i, ⟨?_, ?_, ?_⟩, ?_, ?_⟩
      · simpa using hi
      · intro j hj
        have hj2 : j < (c :: cs).length := by simpa using hj
        rw [hgd j hj2, hgd i hi]
        simpa using hmax j hj2
      · intro j hj
        have hj2 : j < (c :: cs).length := lt_trans hj hi
        rw [hgd j hj2, hgd i hi]
        simpa using hstrict j hj
      · rw [hPA, heq]
      · exact List.Pairwise.sublist (combinations_sublist _ _ _ hmem) (List.pairwise_lt_range _)
  · refine ⟨combinations_lex_pairwise _ _ (List.pairwise_lt_range _), ?_, ?_⟩
    · intro m
      by_cases hm : m ≤ B.Cands.length
      · exact Or.inl hm
      · refine Or.inr ?_
        unfold PropAppvl
        rw [if_pos hap, if_neg hm]
    · intro B2
      by_cases hb : IsBBoxApproval B2 = true
      · exact Or.inl hb
      · refine Or.inr ?_
        unfold PropAppvl
        rw [if_neg hb]

/-- Concrete instantiation of `claim_C4_propappvl` on the PAV example box
with the flat satisfaction function and 2 seats. -/
theorem claim_C4_propappvl_witness :
    IsBBoxApproval wikiPAVBox = true ∧ 2 ≤ wikiPAVBox.Cands.length ∧
      ((∃ i, FirstBestIdx true ((combinations (List.range wikiPAVBox.Cands.length) 2).map
            (SumSats satFlat wikiPAVBox.Wts wikiPAVBox.Votes)) i ∧
          PropAppvl wikiPAVBox satFlat 2 =
            some (((combinations (List.range wikiPAVBox.Cands.length) 2).getD i []).map
              (fun ix => wikiPAVBox.Cands.getD ix "")) ∧
          ((combinations (List.range wikiPAVBox.Cands.length) 2).getD i []).Pairwise (· < ·)) ∧
        List.Pairwise (List.Lex (· < ·)) (combinations (List.range wikiPAVBox.Cands.length) 2) ∧
        (∀ m, m ≤ wikiPAVBox.Cands.length ∨ PropAppvl wikiPAVBox satFlat m = none) ∧
        (∀ B2, IsBBoxApproval B2 = true ∨ PropAppvl B2 satFlat 2 = none)) :=
  ⟨by decide, by decide, claim_C4_propappvl wikiPAVBox satFlat 2 (by decide) (by decide)⟩

theorem seqScores_getD (WtFunc : ℚ → ℚ) (Wts : List ℚ) (st : SeqState)
    (ix : ℕ) (hix : ix < st.Cands.length) :
    (seqScores WtFunc Wts st).getD ix 0 =
      ((zip3 Wts st.Victs st.Votes).map (fun t => t.1 * WtFunc t.2.1 * t.2.2.getD ix 0)).sum := by
  unfold seqScores
  rw [List.getD_eq_getElem _ _ (by simpa using hix), List.getElem_map, List.getElem_range]

/-- Claim C5: in every round of `SeqPropAppvl` on a structurally valid box,
every remaining candidate appears in the round result with score
`Σ_ballots weight * WtFunc(victories) * vote`; the winner index is the first
index with the greatest score (earlier candidates on a tie all score
strictly less); afterwards every ballot's victory count grows by its vote
for the winner, and the winner is removed from the candidate list and from
every vote row (exactly one candidate per round). -/
theorem claim_C5_seqpropappvl (B : BBox) (WtFunc : ℚ → ℚ) (h : IsBBox B = true)
    (r : ℕ) (hr : r < B.Cands.length)
    (st : SeqState) (hst : seqStateAt WtFunc B.Wts (seqInit B) r = st)
    (out : List (String × ℚ) × ℕ × SeqState) (hout : seqRound WtFunc B.Wts st = out) :
    (∀ ix, ix < st.Cands.length →
      (st.Cands.getD ix "",
        ((zip3 B.Wts st.Victs st.Votes).map
          (fun t => t.1 * WtFunc t.2.1 * t.2.2.getD ix 0)).sum) ∈ out.1) ∧
    FirstBestIdx true (seqScores WtFunc B.Wts st) out.2.1 ∧
    out.2.2.Victs = (st.Victs.zip st.Votes).map (fun p => p.1 + p.2.getD out.2.1 0) ∧
    out.2.2.Cands = st.Cands.eraseIdx out.2.1 ∧
    out.2.2.Votes = st.Votes.map (fun v => v.eraseIdx out.2.1) ∧
    out.2.2.Cands.length + 1 = st.Cands.length := by
  have hstlen : st.Cands.length = B.Cands.length - r := by
    rw [← hst]
    exact seqStateAt_length WtFunc B.Wts (seqInit B) r (le_of_lt hr)
  have hne : st.Cands ≠ [] := by
    intro hempty
    rw [hempty] at hstlen
    simp at hstlen
    omega
  subst hout
  refine ⟨?_, seqRound_winner WtFunc B.Wts st hne, rfl, rfl, rfl,
    seqRound_next_length WtFunc B.Wts st hne⟩
  intro ix hix
  have hmem := sorted_zip_mem true st.Cands (seqScores WtFunc B.Wts st)
    (seqScores_length WtFunc B.Wts st) ix hix
  rw [seqScores_getD WtFunc B.Wts st ix hix] at hmem
  have h1 : (seqRound WtFunc B.Wts st).1 =
      (sortBy (fun x => x.1.2) true ((st.Cands.zip (seqScores WtFunc B.Wts st)).zip
        (List.range st.Cands.length))).map (fun x => x.1) ++
      [(TotalText, ((zip3 B.Wts st.Victs st.Votes).map (fun t => t.1 * WtFunc t.2.1)).sum)] := rfl
  rw [h1]
  exact List.mem_append_left _ hmem

/-- Concrete instantiation of `claim_C5_seqpropappvl`: round 1 (0-based) of
the sequential method on the PAV example box with the D'Hondt weight. -/
theorem claim_C5_seqpropappvl_witness :
    IsBBox wikiPAVBox = true ∧ 1 < wikiPAVBox.Cands.length ∧
      ((∀ ix, ix < (seqStateAt wtDH wikiPAVBox.Wts (seqInit wikiPAVBox) 1).Cands.length →
        ((seqStateAt wtDH wikiPAVBox.Wts (seqInit wikiPAVBox) 1).Cands.getD ix "",
          ((zip3 wikiPAVBox.Wts (seqStateAt wtDH wikiPAVBox.Wts (seqInit wikiPAVBox) 1).Victs
              (seqStateAt wtDH wikiPAVBox.Wts (seqInit wikiPAVBox) 1).Votes).map
            (fun t => t.1 * wtDH t.2.1 * t.2.2.getD ix 0)).sum) ∈
          (seqRound wtDH wikiPAVBox.Wts (seqStateAt wtDH wikiPAVBox.Wts (seqInit wikiPAVBox) 1)).1) ∧
      FirstBestIdx true (seqScores wtDH wikiPAVBox.Wts
          (seqStateAt wtDH wikiPAVBox.Wts (seqInit wikiPAVBox) 1))
        (seqRound wtDH wikiPAVBox.Wts (seqStateAt wtDH wikiPAVBox.Wts (seqInit wikiPAVBox) 1)).2.1 ∧
      (seqRound wtDH wikiPAVBox.Wts
          (seqStateAt wtDH wikiPAVBox.Wts (seqInit wikiPAVBox) 1)).2.2.Victs =
        ((seqStateAt wtDH wikiPAVBox.Wts (seqInit wikiPAVBox) 1).Victs.zip
            (seqStateAt wtDH wikiPAVBox.Wts (seqInit wikiPAVBox) 1).Votes).map
          (fun p => p.1 + p.2.getD (seqRound wtDH wikiPAVBox.Wts
            (seqStateAt wtDH wikiPAVBox.Wts (seqInit wikiPAVBox) 1)).2.1 0) ∧
      (seqRound wtDH wikiPAVBox.Wts
          (seqStateAt wtDH wikiPAVBox.Wts (seqInit wikiPAVBox) 1)).2.2.Cands =
        (seqStateAt wtDH wikiPAVBox.Wts (seqInit wikiPAVBox) 1).Cands.eraseIdx
          (seqRound wtDH wikiPAVBox.Wts (seqStateAt wtDH wikiPAVBox.Wts (seqInit wikiPAVBox) 1)).2.1 ∧
      (seqRound wtDH wikiPAVBox.Wts
          (seqStateAt wtDH wikiPAVBox.Wts (seqInit wikiPAVBox) 1)).2.2.Votes =
        (seqStateAt wtDH wikiPAVBox.Wts (seqInit wikiPAVBox) 1).Votes.map
          (fun v => v.eraseIdx (seqRound wtDH wikiPAVBox.Wts
            (seqStateAt wtDH wikiPAVBox.Wts (seqInit wikiPAVBox) 1)).2.1) ∧
      (seqRound wtDH wikiPAVBox.Wts
          (seqStateAt wtDH wikiPAVBox.Wts (seqInit wikiPAVBox) 1)).2.2.Cands.length + 1 =
        (seqStateAt wtDH wikiPAVBox.Wts (seqInit wikiPAVBox) 1).Cands.length) :=
  ⟨by decide, by decide,
    claim_C5_seqpropappvl wikiPAVBox wtDH (by decide) 1 (by decide) _ rfl _ rfl⟩

theorem elimScores_getD (SatFunc : ℚ → ℚ) (Wts : List ℚ) (Votes : List (List ℚ))
    (n ix : ℕ) (hix : ix < n) :
    (elimScores SatFunc Wts Votes n).getD ix 0 =
      ((Wts.zip Votes).map (fun wv =>
        wv.1 * SatFunc ((wv.2.take ix).sum + (wv.2.drop (ix + 1)).sum))).sum := by
  unfold elimScores
  rw [List.getD_eq_getElem _ _ (by simpa using hix), List.getElem_map, List.getElem_range]

theorem eraseIdx_sum (v : List ℚ) (ix : ℕ) :
    (v.eraseIdx ix).sum = (v.take ix).sum + (v.drop (ix + 1)).sum := by
  rw [List.eraseIdx_eq_take_drop_succ, List.sum_append]

/-- Claim C1 (counterexample): with `sortDescending = true` on the valid
approval box with candidates [A, B] and one ballot approving only A, the
first round of the eliminative method removes index 1 (candidate B), whose
removal-satisfaction is 1, while index 0 (candidate A) has
removal-satisfaction 0: the eliminated candidate is not the one whose
removal yields the lowest resulting satisfaction, refuting the claim as
stated. -/
theorem claim_C1_counterexample :
    IsBBoxApproval zeroSupportBox = true ∧
    elimStateAt (fun q => q) true zeroSupportBox.Wts zeroSupportBox.Wts.sum
      (zeroSupportBox.Cands, zeroSupportBox.Votes) 0 =
      (zeroSupportBox.Cands, zeroSupportBox.Votes) ∧
    elimScores (fun q => q) zeroSupportBox.Wts zeroSupportBox.Votes 2 = [0, 1] ∧
    (elimRound (fun q => q) true zeroSupportBox.Wts zeroSupportBox.Wts.sum
      (zeroSupportBox.Cands, zeroSupportBox.Votes)).2.1 = 1 ∧
    ¬ FirstBestIdx false (elimScores (fun q => q) zeroSupportBox.Wts
      zeroSupportBox.Votes 2) 1 := by
  decide

/-- Claim C1 (amended): in every round of `ElimPropAppvl` on an
approval-restricted box, each remaining candidate's removal score is
`Σ_ballots weight * SatFunc(sum of the ballot's votes for the other
remaining candidates)`; with `sortDescending = true` the eliminated
candidate is the remaining candidate whose removal yields the HIGHEST
resulting total satisfaction (first such position on ties), and with
`sortDescending = false` the one whose removal yields the LOWEST; exactly
one candidate is removed per round, from the candidate list and from every
vote row. -/
theorem claim_C1_elim_amended (B : BBox) (SatFunc : ℚ → ℚ) (SortDir : Bool)
    (hap : IsBBoxApproval B = true) (r : ℕ) (hr : r < B.Cands.length)
    (cv : List String × List (List ℚ))
    (hcv : elimStateAt SatFunc SortDir B.Wts B.Wts.sum (B.Cands, B.Votes) r = cv)
    (out : List (String × ℚ) × ℕ × (List String × List (List ℚ)))
    (hout : elimRound SatFunc SortDir B.Wts B.Wts.sum cv = out) :
    (∀ ix, ix < cv.1.length →
      (elimScores SatFunc B.Wts cv.2 cv.1.length).getD ix 0 =
        ((B.Wts.zip cv.2).map (fun wv => wv.1 * SatFunc ((wv.2.eraseIdx ix).sum))).sum) ∧
    FirstBestIdx SortDir (elimScores SatFunc B.Wts cv.2 cv.1.length) out.2.1 ∧
    out.2.2.1 = cv.1.eraseIdx out.2.1 ∧
    out.2.2.2 = cv.2.map (fun v => v.eraseIdx out.2.1) ∧
    out.2.2.1.length + 1 = cv.1.length := by
  have hstlen : cv.1.length = B.Cands.length - r := by
    rw [← hcv]
    exact elimStateAt_length SatFunc SortDir B.Wts B.Wts.sum (B.Cands, B.Votes) r (le_of_lt hr)
  have hne : cv.1 ≠ [] := by
    intro hempty
    rw [hempty] at hstlen
    simp at hstlen
    omega
  subst hout
  refine ⟨?_, elimRound_winner SatFunc SortDir B.Wts B.Wts.sum cv hne, rfl, rfl,
    elimRound_next_length SatFunc SortDir B.Wts B.Wts.sum cv hne⟩
  intro ix hix
  rw [elimScores_getD SatFunc B.Wts cv.2 cv.1.length ix hix]
  refine congrArg List.sum (List.map_congr_left ?_)
  intro wv hwv
  rw [eraseIdx_sum]

/-- Concrete instantiation of `claim_C1_elim_amended`: round 1 (0-based) of
the eliminative method on the PAV example box, flat satisfaction, reverse
sort. -/
theorem claim_C1_elim_amended_witness :
    IsBBoxApproval wikiPAVBox = true ∧ 1 < wikiPAVBox.Cands.length ∧
      ((∀ ix, ix < (elimStateAt satFlat true wikiPAVBox.Wts wikiPAVBox.Wts.sum
            (wikiPAVBox.Cands, wikiPAVBox.Votes) 1).1.length →
        (elimScores satFlat wikiPAVBox.Wts
            (elimStateAt satFlat true wikiPAVBox.Wts wikiPAVBox.Wts.sum
              (wikiPAVBox.Cands, wikiPAVBox.Votes) 1).2
            (elimStateAt satFlat true wikiPAVBox.Wts wikiPAVBox.Wts.sum
              (wikiPAVBox.Cands, wikiPAVBox.Votes) 1).1.length).getD ix 0 =
          ((wikiPAVBox.Wts.zip (elimStateAt satFlat true wikiPAVBox.Wts wikiPAVBox.Wts.sum
              (wikiPAVBox.Cands, wikiPAVBox.Votes) 1).2).map
            (fun wv => wv.1 * satFlat ((wv.2.eraseIdx ix).sum))).sum) ∧
      FirstBestIdx true (elimScores satFlat wikiPAVBox.Wts
          (elimStateAt satFlat true wikiPAVBox.Wts wikiPAVBox.Wts.sum
            (wikiPAVBox.Cands, wikiPAVBox.Votes) 1).2
          (elimStateAt satFlat true wikiPAVBox.Wts wikiPAVBox.Wts.sum
            (wikiPAVBox.Cands, wikiPAVBox.Votes) 1).1.length)
        (elimRound satFlat true wikiPAVBox.Wts wikiPAVBox.Wts.sum
          (elimStateAt satFlat true wikiPAVBox.Wts wikiPAVBox.Wts.sum
            (wikiPAVBox.Cands, wikiPAVBox.Votes) 1)).2.1 ∧
      (elimRound satFlat true wikiPAVBox.Wts wikiPAVBox.Wts.sum
          (elimStateAt satFlat true wikiPAVBox.Wts wikiPAVBox.Wts.sum
            (wikiPAVBox.Cands, wikiPAVBox.Votes) 1)).2.2.1 =
        (elimStateAt satFlat true wikiPAVBox.Wts wikiPAVBox.Wts.sum
          (wikiPAVBox.Cands, wikiPAVBox.Votes) 1).1.eraseIdx
          (elimRound satFlat true wikiPAVBox.Wts wikiPAVBox.Wts.sum
            (elimStateAt satFlat true wikiPAVBox.Wts wikiPAVBox.Wts.sum
              (wikiPAVBox.Cands, wikiPAVBox.Votes) 1)).2.1 ∧
      (elimRound satFlat true wikiPAVBox.Wts wikiPAVBox.Wts.sum
          (elimStateAt satFlat true wikiPAVBox.Wts wikiPAVBox.Wts.sum
            (wikiPAVBox.Cands, wikiPAVBox.Votes) 1)).2.2.2 =
        (elimStateAt satFlat true wikiPAVBox.Wts wikiPAVBox.Wts.sum
          (wikiPAVBox.Cands, wikiPAVBox.Votes) 1).2.map
          (fun v => v.eraseIdx (elimRound satFlat true wikiPAVBox.Wts wikiPAVBox.Wts.sum
            (elimStateAt satFlat true wikiPAVBox.Wts wikiPAVBox.Wts.sum
              (wikiPAVBox.Cands, wikiPAVBox.Votes) 1)).2.1) ∧
      (elimRound satFlat true wikiPAVBox.Wts wikiPAVBox.Wts.sum
          (elimStateAt satFlat true wikiPAVBox.Wts wikiPAVBox.Wts.sum
            (wikiPAVBox.Cands, wikiPAVBox.Votes) 1)).2.2.1.length + 1 =
        (elimStateAt satFlat true wikiPAVBox.Wts wikiPAVBox.Wts.sum
          (wikiPAVBox.Cands, wikiPAVBox.Votes) 1).1.length) :=
  ⟨by decide, by decide,
    claim_C1_elim_amended wikiPAVBox satFlat true (by decide) 1 (by decide) _ rfl _ rfl⟩

/- Phragmen machinery for C8: voting-power formulas, non-negativity and the
pointwise monotonicity of the load update. -/

theorem getD_nonneg (v : List ℚ) (hv : ∀ x ∈ v, 0 ≤ x) (k : ℕ) : 0 ≤ v.getD k 0 := by
  by_cases hk : k < v.length
  · rw [List.getD_eq_getElem _ _ hk]
    exact hv _ (List.getElem_mem _)
  · rw [List.getD_eq_default _ _ (by omega)]

theorem sum_nonneg_zip3 (k : ℕ) : ∀ (l1 l2 : List ℚ) (l3 : List (List ℚ)),
    (∀ a ∈ l1, 0 ≤ a) → (∀ w ∈ l2, 0 ≤ w) → (∀ v ∈ l3, ∀ x ∈ v, 0 ≤ x) →
    0 ≤ ((zip3 l1 l2 l3).map (fun t => t.1 * t.2.1 * t.2.2.getD k 0)).sum := by
  intro l1
  induction l1 with
  | nil => intro l2 l3 h1 h2 h3; simp [zip3]
  | cons a l1t ih =>
    intro l2 l3 h1 h2 h3
    cases l2 with
    | nil => simp [zip3]
    | cons w l2t =>
      cases l3 with
      | nil => simp [zip3]
      | cons v l3t =>
        have hz : zip3 (a :: l1t) (w :: l2t) (v :: l3t) = (a, w, v) :: zip3 l1t l2t l3t := rfl
        rw [hz, List.map_cons, List.sum_cons]
        have ht : 0 ≤ a * w * v.getD k 0 :=
          mul_nonneg (mul_nonneg (h1 a (by simp)) (h2 w (by simp)))
            (getD_nonneg v (h3 v (by simp)) k)
        have hrest := ih l2t l3t (fun x hx => h1 x (by simp [hx]))
          (fun x hx => h2 x (by simp [hx])) (fun x hx => h3 x (by simp [hx]))
        linarith

theorem sum_mono_zip3 (k : ℕ) : ∀ (l1 l1b l2 : List ℚ) (l3 : List (List ℚ)),
    List.Forall₂ (fun a b => a ≤ b) l1 l1b →
    (∀ w ∈ l2, 0 ≤ w) → (∀ v ∈ l3, ∀ x ∈ v, 0 ≤ x) →
    ((zip3 l1 l2 l3).map (fun t => t.1 * t.2.1 * t.2.2.getD k 0)).sum ≤
    ((zip3 l1b l2 l3).map (fun t => t.1 * t.2.1 * t.2.2.getD k 0)).sum := by
  intro l1 l1b l2 l3 hf
  induction hf generalizing l2 l3 with
  | nil => intro h2 h3; simp [zip3]
  | cons hab hf2 ih =>
    intro h2 h3
    cases l2 with
    | nil => simp [zip3]
    | cons w l2t =>
      cases l3 with
      | nil => simp [zip3]
      | cons v l3t =>
        show _ + _ ≤ _ + _
        have hterm : _ * w * v.getD k 0 ≤ _ * w * v.getD k 0 :=
          mul_le_mul_of_nonneg_right
            (mul_le_mul_of_nonneg_right hab (h2 w (by simp)))
            (getD_nonneg v (h3 v (by simp)) k)
        have hrest := ih l2t l3t (fun x hx => h2 x (by simp [hx]))
          (fun x hx => h3 x (by simp [hx]))
        exact add_le_add hterm hrest

theorem getD_eraseIdx_col (v : List ℚ) (mnix j : ℕ) (hmn : mnix < v.length)
    (hj : j < v.length - 1) :
    (v.eraseIdx mnix).getD j 0 = v.getD (if j < mnix then j else j + 1) 0 := by
  have hlen : (v.eraseIdx mnix).length = v.length - 1 := by
    rw [List.length_eraseIdx, if_pos hmn]
  rw [List.getD_eq_getElem _ _ (by omega), List.getElem_eraseIdx]
  by_cases hc : j < mnix
  · rw [dif_pos hc, if_pos hc, List.getD_eq_getElem _ _ (by omega)]
  · rw [dif_neg hc, if_neg hc, List.getD_eq_getElem _ _ (by omega)]

theorem sum_col_eraseIdx (mnix j n : ℕ) (hmn : mnix < n) (hj : j < n - 1) :
    ∀ (l1 l2 : List ℚ) (l3 : List (List ℚ)), (∀ v ∈ l3, v.length = n) →
    ((zip3 l1 l2 (l3.map (fun v => v.eraseIdx mnix))).map
      (fun t => t.1 * t.2.1 * t.2.2.getD j 0)).sum =
    ((zip3 l1 l2 l3).map
      (fun t => t.1 * t.2.1 * t.2.2.getD (if j < mnix then j else j + 1) 0)).sum := by
  intro l1
  induction l1 with
  | nil => intro l2 l3 hl; simp [zip3]
  | cons a l1t ih =>
    intro l2 l3 hl
    cases l2 with
    | nil => simp [zip3]
    | cons w l2t =>
      cases l3 with
      | nil => simp [zip3]
      | cons v l3t =>
        have hvn : v.length = n := hl v (by simp)
        have hz1 : zip3 (a :: l1t) (w :: l2t) ((v :: l3t).map (fun v2 => v2.eraseIdx mnix)) =
            (a, w, v.eraseIdx mnix) :: zip3 l1t l2t (l3t.map (fun v2 => v2.eraseIdx mnix)) := rfl
        have hz2 : zip3 (a :: l1t) (w :: l2t) (v :: l3t) = (a, w, v) :: zip3 l1t l2t l3t := rfl
        rw [hz1, hz2, List.map_cons, List.map_cons, List.sum_cons, List.sum_cons]
        rw [getD_eraseIdx_col v mnix j (by omega) (by omega)]
        rw [ih l2t l3t (fun x hx => hl x (by simp [hx]))]

theorem phrPowers_length (Wts : List ℚ) (st : PhrState) :
    (phrPowers Wts st).length = min st.Cands.length st.vdrcp.length := by
  simp [phrPowers, List.length_zip]

theorem phrPowers_getD (Wts : List ℚ) (st : PhrState) (k : ℕ)
    (hk : k < st.Cands.length) (hk2 : k < st.vdrcp.length) :
    (phrPowers Wts st).getD k 0 =
      st.vdrcp.getD k 0 *
        (1 + ((zip3 st.bloads Wts st.Votes).map
          (fun t => t.1 * t.2.1 * t.2.2.getD k 0)).sum) := by
  unfold phrPowers
  rw [List.getD_eq_getElem _ _ (by simp [List.length_zip]; omega)]
  rw [List.getElem_map, List.getElem_zip, List.getElem_map, List.getElem_range]
  rw [List.getD_eq_getElem st.vdrcp 0 hk2]

theorem phrPowers_nonneg (Wts : List ℚ) (st : PhrState)
    (hw : ∀ w ∈ Wts, 0 ≤ w)
    (hbl0 : ∀ bl ∈ st.bloads, 0 ≤ bl)
    (hrd : ∀ rd ∈ st.vdrcp, 0 ≤ rd)
    (hv0 : ∀ v ∈ st.Votes, ∀ x ∈ v, 0 ≤ x) :
    ∀ p ∈ phrPowers Wts st, 0 ≤ p := by
  intro p hp
  unfold phrPowers at hp
  rcases List.mem_map.mp hp with ⟨pr, hprm, hpre⟩
  have hrd2 : 0 ≤ pr.2 := hrd pr.2 (List.of_mem_zip hprm).2
  have ha : pr.1 ∈ (List.range st.Cands.length).map (fun k =>
      1 + ((zip3 st.bloads Wts st.Votes).map
        (fun t => t.1 * t.2.1 * t.2.2.getD k 0)).sum) := (List.of_mem_zip hprm).1
  rcases List.mem_map.mp ha with ⟨k, hkm, hke⟩
  have hs : 0 ≤ ((zip3 st.bloads Wts st.Votes).map
      (fun t => t.1 * t.2.1 * t.2.2.getD k 0)).sum :=
    sum_nonneg_zip3 k st.bloads Wts st.Votes hbl0 hw hv0
  rw [← hpre, ← hke]
  have h1 : (0 : ℚ) ≤ 1 + ((zip3 st.bloads Wts st.Votes).map
      (fun t => t.1 * t.2.1 * t.2.2.getD k 0)).sum := by linarith
  exact mul_nonneg hrd2 h1

theorem phrRound_winner (Wts : List ℚ) (TotWts : ℚ) (st : PhrState)
    (hne : st.Cands ≠ []) (hrl : st.vdrcp.length = st.Cands.length) :
    FirstBestIdx false (phrPowers Wts st) (phrRound Wts TotWts st).2.1 ∧
    (phrRound Wts TotWts st).2.2.1 =
      (phrPowers Wts st).getD (phrRound Wts TotWts st).2.1 0 := by
  have hplen : (phrPowers Wts st).length = st.Cands.length := by
    rw [phrPowers_length, hrl]
    simp
  rcases roundWinner_spec false st.Cands (phrPowers Wts st) hplen hne with
    ⟨i, hix, hval, hcand, hfb⟩
  have hdef1 : (phrRound Wts TotWts st).2.1 =
      ((sortBy (fun x => x.1.2) false ((st.Cands.zip (phrPowers Wts st)).zip
        (List.range st.Cands.length))).head?.map (fun x => x.2)).getD 0 := rfl
  have hdef2 : (phrRound Wts TotWts st).2.2.1 =
      ((sortBy (fun x => x.1.2) false ((st.Cands.zip (phrPowers Wts st)).zip
        (List.range st.Cands.length))).head?.map (fun x => x.1.2)).getD 0 := rfl
  constructor
  · rw [hdef1, hix]
    exact hfb
  · rw [hdef2, hdef1, hix, hval]

theorem phr_bloads_getD (Wts : List ℚ) (TotWts : ℚ) (st : PhrState) (k : ℕ)
    (hk1 : k < st.Votes.length) (hk2 : k < st.bloads.length) :
    (phrRound Wts TotWts st).2.2.2.bloads.getD k 0 =
      if (st.Votes.getD k []).getD (phrRound Wts TotWts st).2.1 0 = 0
      then st.bloads.getD k 0 else (phrRound Wts TotWts st).2.2.1 := by
  have hdef : (phrRound Wts TotWts st).2.2.2.bloads =
      (st.Votes.zip st.bloads).map (fun p =>
        if p.1.getD (phrRound Wts TotWts st).2.1 (0 : ℚ) = 0 then p.2
        else (phrRound Wts TotWts st).2.2.1) := rfl
  rw [hdef]
  rw [List.getD_eq_getElem _ _ (by simp [List.length_zip]; omega)]
  rw [List.getElem_map, List.getElem_zip]
  rw [List.getD_eq_getElem st.Votes [] hk1, List.getD_eq_getElem st.bloads 0 hk2]

theorem forall2_new_loads (mnix : ℕ) (M : ℚ) :
    ∀ (vs : List (List ℚ)) (bs : List ℚ), vs.length = bs.length →
    (∀ b ∈ bs, b ≤ M) →
    List.Forall₂ (fun a b => a ≤ b) bs
      ((vs.zip bs).map (fun p => if p.1.getD mnix (0 : ℚ) = 0 then p.2 else M)) := by
  intro vs
  induction vs with
  | nil =>
    intro bs hlen hb
    have : bs = [] := by
      cases bs with
      | nil => rfl
      | cons b bt => simp at hlen
    rw [this]
    simp
  | cons v vt ih =>
    intro bs hlen hb
    cases bs with
    | nil => simp at hlen
    | cons b bt =>
      show List.Forall₂ _ (b :: bt) ((if v.getD mnix (0 : ℚ) = 0 then b else M) :: _)
      refine List.Forall₂.cons ?_ (ih bt (by simpa using hlen) (fun x hx => hb x (by simp [hx])))
      by_cases hc : v.getD mnix (0 : ℚ) = 0
      · rw [if_pos hc]
      · rw [if_neg hc]
        exact hb b (by simp)

/-- One `Phragmen` round preserves the working invariants (every load is at
most every remaining voting power, and all quantities stay non-negative and
aligned), and the winning power dominates every current load. -/
theorem phrRound_preserves (Wts : List ℚ) (TotWts : ℚ) (st : PhrState)
    (hw : ∀ w ∈ Wts, 0 ≤ w)
    (hne : st.Cands ≠ [])
    (hload : ∀ bl ∈ st.bloads, ∀ p ∈ phrPowers Wts st, bl ≤ p)
    (hbl0 : ∀ bl ∈ st.bloads, 0 ≤ bl)
    (hrd : ∀ rd ∈ st.vdrcp, 0 ≤ rd)
    (hv0 : ∀ v ∈ st.Votes, ∀ x ∈ v, 0 ≤ x)
    (hvlen : ∀ v ∈ st.Votes, v.length = st.Cands.length)
    (hrl : st.vdrcp.length = st.Cands.length)
    (hvl : st.Votes.length = Wts.length)
    (hbl : st.bloads.length = Wts.length) :
    (∀ bl ∈ st.bloads, bl ≤ (phrRound Wts TotWts st).2.2.1) ∧
    (∀ bl2 ∈ (phrRound Wts TotWts st).2.2.2.bloads,
      ∀ p2 ∈ phrPowers Wts (phrRound Wts TotWts st).2.2.2, bl2 ≤ p2) ∧
    (∀ bl2 ∈ (phrRound Wts TotWts st).2.2.2.bloads, 0 ≤ bl2) ∧
    (∀ rd ∈ (phrRound Wts TotWts st).2.2.2.vdrcp, 0 ≤ rd) ∧
    (∀ v ∈ (phrRound Wts TotWts st).2.2.2.Votes, ∀ x ∈ v, 0 ≤ x) ∧
    (∀ v ∈ (phrRound Wts TotWts st).2.2.2.Votes,
      v.length = (phrRound Wts TotWts st).2.2.2.Cands.length) ∧
    (phrRound Wts TotWts st).2.2.2.vdrcp.length =
      (phrRound Wts TotWts st).2.2.2.Cands.length ∧
    (phrRound Wts TotWts st).2.2.2.Votes.length = Wts.length ∧
    (phrRound Wts TotWts st).2.2.2.bloads.length = Wts.length ∧
    (phrRound Wts TotWts st).2.2.2.Cands.length + 1 = st.Cands.length := by
  rcases phrRound_winner Wts TotWts st hne hrl with ⟨hfb, hmnvp⟩
  have hC : (phrRound Wts TotWts st).2.2.2.Cands =
      st.Cands.eraseIdx (phrRound Wts TotWts st).2.1 := rfl
  have hV : (phrRound Wts TotWts st).2.2.2.Votes =
      st.Votes.map (fun v => v.eraseIdx (phrRound Wts TotWts st).2.1) := rfl
  have hR : (phrRound Wts TotWts st).2.2.2.vdrcp =
      st.vdrcp.eraseIdx (phrRound Wts TotWts st).2.1 := rfl
  have hB : (phrRound Wts TotWts st).2.2.2.bloads =
      (st.Votes.zip st.bloads).map (fun p =>
        if p.1.getD (phrRound Wts TotWts st).2.1 (0 : ℚ) = 0 then p.2
        else (phrRound Wts TotWts st).2.2.1) := rfl
  have hplen : (phrPowers Wts st).length = st.Cands.length := by
    rw [phrPowers_length, hrl]
    simp
  have hmlt : (phrRound Wts TotWts st).2.1 < st.Cands.length := by
    have h1 := hfb.1
    omega
  have hmem_mnvp : (phrRound Wts TotWts st).2.2.1 ∈ phrPowers Wts st := by
    rw [hmnvp, List.getD_eq_getElem _ _ (by omega)]
    exact List.getElem_mem _
  have hle_mnvp : ∀ bl ∈ st.bloads, bl ≤ (phrRound Wts TotWts st).2.2.1 :=
    fun bl hb => hload bl hb _ hmem_mnvp
  have hmnvp0 : 0 ≤ (phrRound Wts TotWts st).2.2.1 :=
    phrPowers_nonneg Wts st hw hbl0 hrd hv0 _ hmem_mnvp
  have hnew_le : ∀ bl2 ∈ (phrRound Wts TotWts st).2.2.2.bloads,
      bl2 ≤ (phrRound Wts TotWts st).2.2.1 := by
    intro bl2 hb2
    rw [hB] at hb2
    rcases List.mem_map.mp hb2 with ⟨p, hpm, hpe⟩
    by_cases hc : p.1.getD (phrRound Wts TotWts st).2.1 (0 : ℚ) = 0
    · rw [← hpe, if_pos hc]
      exact hle_mnvp p.2 (List.of_mem_zip hpm).2
    · rw [← hpe, if_neg hc]
  have hlen2C : (phrRound Wts TotWts st).2.2.2.Cands.length = st.Cands.length - 1 := by
    rw [hC, List.length_eraseIdx, if_pos hmlt]
  have hlen2R : (phrRound Wts TotWts st).2.2.2.vdrcp.length = st.Cands.length - 1 := by
    rw [hR, List.length_eraseIdx, if_pos (by omega), hrl]
  have hforall2 : List.Forall₂ (fun a b => a ≤ b) st.bloads
      (phrRound Wts TotWts st).2.2.2.bloads := by
    rw [hB]
    exact forall2_new_loads (phrRound Wts TotWts st).2.1 (phrRound Wts TotWts st).2.2.1
      st.Votes st.bloads (by omega) hle_mnvp
  have hpow2_ge : ∀ p2 ∈ phrPowers Wts (phrRound Wts TotWts st).2.2.2,
      (phrRound Wts TotWts st).2.2.1 ≤ p2 := by
    intro p2 hp2
    have hplen2 : (phrPowers Wts (phrRound Wts TotWts st).2.2.2).length =
        st.Cands.length - 1 := by
      rw [phrPowers_length, hlen2C, hlen2R]
      simp
    rcases List.mem_iff_get.mp hp2 with ⟨⟨j, hj⟩, hpe⟩
    have hjn : j < st.Cands.length - 1 := by omega
    have hp2val : p2 = (phrPowers Wts (phrRound Wts TotWts st).2.2.2).getD j 0 := by
      rw [List.getD_eq_getElem _ _ hj, ← hpe, List.get_eq_getElem]
    have hφlt : (if j < (phrRound Wts TotWts st).2.1 then j else j + 1) < st.Cands.length := by
      by_cases hcj : j < (phrRound Wts TotWts st).2.1
      · rw [if_pos hcj]
        omega
      · rw [if_neg hcj]
        omega
    have hrd2j : (phrRound Wts TotWts st).2.2.2.vdrcp.getD j 0 =
        st.vdrcp.getD (if j < (phrRound Wts TotWts st).2.1 then j else j + 1) 0 := by
      rw [hR]
      exact getD_eraseIdx_col st.vdrcp (phrRound Wts TotWts st).2.1 j (by omega) (by omega)
    have hS2 : ((zip3 (phrRound Wts TotWts st).2.2.2.bloads Wts
          (phrRound Wts TotWts st).2.2.2.Votes).map
        (fun t => t.1 * t.2.1 * t.2.2.getD j 0)).sum =
        ((zip3 (phrRound Wts TotWts st).2.2.2.bloads Wts st.Votes).map
          (fun t => t.1 * t.2.1 *
            t.2.2.getD (if j < (phrRound Wts TotWts st).2.1 then j else j + 1) 0)).sum := by
      rw [hV]
      exact sum_col_eraseIdx (phrRound Wts TotWts st).2.1 j st.Cands.length hmlt hjn
        (phrRound Wts TotWts st).2.2.2.bloads Wts st.Votes hvlen
    have hmono : ((zip3 st.bloads Wts st.Votes).map
          (fun t => t.1 * t.2.1 *
            t.2.2.getD (if j < (phrRound Wts TotWts st).2.1 then j else j + 1) 0)).sum ≤
        ((zip3 (phrRound Wts TotWts st).2.2.2.bloads Wts st.Votes).map
          (fun t => t.1 * t.2.1 *
            t.2.2.getD (if j < (phrRound Wts TotWts st).2.1 then j else j + 1) 0)).sum :=
      sum_mono_zip3 _ st.bloads (phrRound Wts TotWts st).2.2.2.bloads Wts st.Votes
        hforall2 hw hv0
    have hpφ : (phrPowers Wts st).getD
          (if j < (phrRound Wts TotWts st).2.1 then j else j + 1) 0 =
        st.vdrcp.getD (if j < (phrRound Wts TotWts st).2.1 then j else j + 1) 0 *
          (1 + ((zip3 st.bloads Wts st.Votes).map
            (fun t => t.1 * t.2.1 *
              t.2.2.getD (if j < (phrRound Wts TotWts st).2.1 then j else j + 1) 0)).sum) :=
      phrPowers_getD Wts st _ hφlt (by omega)
    have hmnle : (phrRound Wts TotWts st).2.2.1 ≤ (phrPowers Wts st).getD
        (if j < (phrRound Wts TotWts st).2.1 then j else j + 1) 0 := by
      have h2 := hfb.2.1 (if j < (phrRound Wts TotWts st).2.1 then j else j + 1) (by omega)
      simp only [Bool.false_eq_true, if_false] at h2
      rw [hmnvp]
      exact h2
    have hrdφ : 0 ≤ st.vdrcp.getD
        (if j < (phrRound Wts TotWts st).2.1 then j else j + 1) 0 :=
      getD_nonneg st.vdrcp hrd _
    have hp2ge : (phrPowers Wts st).getD
        (if j < (phrRound Wts TotWts st).2.1 then j else j + 1) 0 ≤ p2 := by
      rw [hp2val, phrPowers_getD Wts (phrRound Wts TotWts st).2.2.2 j (by omega) (by omega)]
      rw [hrd2j, hS2, hpφ]
      exact mul_le_mul_of_nonneg_left (by linarith) hrdφ
    exact le_trans hmnle hp2ge
  refine ⟨hle_mnvp, ?_, ?_, ?_, ?_, ?_, ?_, ?_, ?_, ?_⟩
  · exact fun bl2 hb2 p2 hp2 => le_trans (hnew_le bl2 hb2) (hpow2_ge p2 hp2)
  · intro bl2 hb2
    rw [hB] at hb2
    rcases List.mem_map.mp hb2 with ⟨p, hpm, hpe⟩
    by_cases hc : p.1.getD (phrRound Wts TotWts st).2.1 (0 : ℚ) = 0
    · rw [← hpe, if_pos hc]
      exact hbl0 p.2 (List.of_mem_zip hpm).2
    · rw [← hpe, if_neg hc]
      exact hmnvp0
  · intro rd hrdm
    rw [hR] at hrdm
    exact hrd rd (List.eraseIdx_subset _ _ hrdm)
  · intro v hv x hx
    rw [hV] at hv
    rcases List.mem_map.mp hv with ⟨v0, hv0m, hv0e⟩
    rw [← hv0e] at hx
    exact hv0 v0 hv0m x (List.eraseIdx_subset _ _ hx)
  · intro v hv
    rw [hV] at hv
    rcases List.mem_map.mp hv with ⟨v0, hv0m, hv0e⟩
    have hlv : v0.length = st.Cands.length := hvlen v0 hv0m
    rw [← hv0e, List.length_eraseIdx, if_pos (by omega), hlv, hlen2C]
  · rw [hlen2R, hlen2C]
  · rw [hV, List.length_map, hvl]
  · rw [hB, List.length_map, List.length_zip]
    omega
  · omega

theorem isBBoxApproval_iff (B : BBox) : IsBBoxApproval B = true ↔
    IsBBox B = true ∧ ∀ v ∈ B.Votes, ∀ x ∈ v, x = 0 ∨ x = 1 := by
  simp [IsBBoxApproval, List.all_eq_true]

theorem candSums_nonneg (Wts : List ℚ) (Votes : List (List ℚ)) (n : ℕ)
    (hw : ∀ w ∈ Wts, 0 ≤ w) (hv : ∀ v ∈ Votes, ∀ x ∈ v, 0 ≤ x) :
    ∀ x ∈ candSums Wts Votes n, 0 ≤ x := by
  intro x hx
  unfold candSums at hx
  rcases List.mem_map.mp hx with ⟨ix, hixm, hixe⟩
  rw [← hixe]
  refine List.sum_nonneg ?_
  intro y hy
  rcases List.mem_map.mp hy with ⟨wv, hwv, hwve⟩
  rw [← hwve]
  exact mul_nonneg (hw wv.1 (List.of_mem_zip hwv).1)
    (getD_nonneg wv.2 (hv wv.2 (List.of_mem_zip hwv).2) ix)

/-- The `Phragmen` invariants propagate through any number of rounds. -/
theorem phrStateAt_inv (Wts : List ℚ) (TotWts : ℚ) (st0 : PhrState)
    (hw : ∀ w ∈ Wts, 0 ≤ w)
    (hload : ∀ bl ∈ st0.bloads, ∀ p ∈ phrPowers Wts st0, bl ≤ p)
    (hbl0 : ∀ bl ∈ st0.bloads, 0 ≤ bl)
    (hrd : ∀ rd ∈ st0.vdrcp, 0 ≤ rd)
    (hv0 : ∀ v ∈ st0.Votes, ∀ x ∈ v, 0 ≤ x)
    (hvlen : ∀ v ∈ st0.Votes, v.length = st0.Cands.length)
    (hrl : st0.vdrcp.length = st0.Cands.length)
    (hvl : st0.Votes.length = Wts.length)
    (hbl : st0.bloads.length = Wts.length) :
    ∀ r, r ≤ st0.Cands.length →
    (∀ bl ∈ (phrStateAt Wts TotWts st0 r).bloads,
      ∀ p ∈ phrPowers Wts (phrStateAt Wts TotWts st0 r), bl ≤ p) ∧
    (∀ bl ∈ (phrStateAt Wts TotWts st0 r).bloads, 0 ≤ bl) ∧
    (∀ rd ∈ (phrStateAt Wts TotWts st0 r).vdrcp, 0 ≤ rd) ∧
    (∀ v ∈ (phrStateAt Wts TotWts st0 r).Votes, ∀ x ∈ v, 0 ≤ x) ∧
    (∀ v ∈ (phrStateAt Wts TotWts st0 r).Votes,
      v.length = (phrStateAt Wts TotWts st0 r).Cands.length) ∧
    (phrStateAt Wts TotWts st0 r).vdrcp.length = (phrStateAt Wts TotWts st0 r).Cands.length ∧
    (phrStateAt Wts TotWts st0 r).Votes.length = Wts.length ∧
    (phrStateAt Wts TotWts st0 r).bloads.length = Wts.length ∧
    (phrStateAt Wts TotWts st0 r).Cands.length = st0.Cands.length - r := by
  intro r
  induction r with
  | zero =>
    intro hr0
    exact ⟨hload, hbl0, hrd, hv0, hvlen, hrl, hvl, hbl, rfl⟩
  | succ r2 ih =>
    intro hr2s
    rcases ih (by omega) with ⟨i1, i2, i3, i4, i5, i6, i7, i8, i9⟩
    have hne : (phrStateAt Wts TotWts st0 r2).Cands ≠ [] := by
      intro hempty
      rw [hempty] at i9
      simp at i9
      omega
    rcases phrRound_preserves Wts TotWts (phrStateAt Wts TotWts st0 r2) hw hne
        i1 i2 i3 i4 i5 i6 i7 i8 with ⟨p1, p2, p3, p4, p5, p6, p7, p8, p9, p10⟩
    have hstep : phrStateAt Wts TotWts st0 (r2 + 1) =
        (phrRound Wts TotWts (phrStateAt Wts TotWts st0 r2)).2.2.2 := rfl
    rw [hstep]
    exact ⟨p2, p3, p4, p5, p6, p7, p8, p9, by omega⟩

/-- Claim C8: in every round of `Phragmen` on a structurally valid
approval-restricted box (weights non-negative, per the data model) in which
every candidate has nonzero total weighted approval, every ballot that
approves the round winner has its load set to the winning voting power,
which is at least its prior load, and every other ballot keeps its prior
load (so loads never decrease). -/
theorem claim_C8_phragmen_loads (B : BBox)
    (hap : IsBBoxApproval B = true)
    (hw : ∀ w ∈ B.Wts, 0 ≤ w)
    (hz : ∀ x ∈ candSums B.Wts B.Votes B.Cands.length, x ≠ 0)
    (r : ℕ) (hr : r < B.Cands.length)
    (st : PhrState)
    (hst : phrStateAt B.Wts B.Wts.sum
      (phrInit B ((candSums B.Wts B.Votes B.Cands.length).map (fun x => 1 / x))) r = st)
    (out : List (String × ℚ) × ℕ × ℚ × PhrState)
    (hout : phrRound B.Wts B.Wts.sum st = out) :
    ∀ k, k < st.bloads.length →
      ((st.Votes.getD k []).getD out.2.1 0 ≠ 0 →
        out.2.2.2.bloads.getD k 0 = out.2.2.1 ∧ st.bloads.getD k 0 ≤ out.2.2.1) ∧
      ((st.Votes.getD k []).getD out.2.1 0 = 0 →
        out.2.2.2.bloads.getD k 0 = st.bloads.getD k 0) := by
  rcases (isBBoxApproval_iff B).mp hap with ⟨hbox, happ⟩
  rcases (isBBox_iff B).mp hbox with ⟨hvwlen, hrows⟩
  have hv0 : ∀ v ∈ B.Votes, ∀ x ∈ v, 0 ≤ x := by
    intro v hv x hx
    rcases happ v hv x hx with h01 | h01
    · rw [h01]
    · rw [h01]
      norm_num
  have hcs0 : ∀ x ∈ candSums B.Wts B.Votes B.Cands.length, 0 ≤ x :=
    candSums_nonneg B.Wts B.Votes B.Cands.length hw hv0
  have hinit : phrInit B ((candSums B.Wts B.Votes B.Cands.length).map (fun x => 1 / x)) =
      ⟨B.Cands, B.Votes, (candSums B.Wts B.Votes B.Cands.length).map (fun x => 1 / x),
        List.replicate B.Wts.length 0⟩ := rfl
  have hbl0i : ∀ bl ∈ (List.replicate B.Wts.length (0 : ℚ)), 0 ≤ bl := by
    intro bl hb
    rw [List.eq_of_mem_replicate hb]
  have hrdi : ∀ rd ∈ (candSums B.Wts B.Votes B.Cands.length).map (fun x => 1 / x), 0 ≤ rd := by
    intro rd hrdm
    rcases List.mem_map.mp hrdm with ⟨x, hxm, hxe⟩
    rw [← hxe]
    exact one_div_nonneg.mpr (hcs0 x hxm)
  have hinv := phrStateAt_inv B.Wts B.Wts.sum
    (phrInit B ((candSums B.Wts B.Votes B.Cands.length).map (fun x => 1 / x))) hw
    (by
      rw [hinit]
      intro bl hb p hp
      rw [List.eq_of_mem_replicate hb]
      exact phrPowers_nonneg B.Wts _ hw hbl0i hrdi hv0 p hp)
    (by rw [hinit]; exact hbl0i)
    (by rw [hinit]; exact hrdi)
    (by rw [hinit]; exact hv0)
    (by rw [hinit]; exact hrows)
    (by rw [hinit]; show _ = B.Cands.length; simp [candSums])
    (by rw [hinit]; exact hvwlen)
    (by rw [hinit]; simp)
    r (by rw [hinit]; exact le_of_lt hr)
  rw [hst] at hinv
  rcases hinv with ⟨i1, i2, i3, i4, i5, i6, i7, i8, i9⟩
  have hinitlen : (phrInit B ((candSums B.Wts B.Votes B.Cands.length).map
      (fun x => 1 / x))).Cands.length = B.Cands.length := rfl
  have hne : st.Cands ≠ [] := by
    intro hempty
    rw [hempty] at i9
    rw [hinitlen] at i9
    simp at i9
    omega
  rcases phrRound_preserves B.Wts B.Wts.sum st hw hne i1 i2 i3 i4 i5 i6 i7 i8 with
    ⟨hle, hrest⟩
  subst hout
  intro k hk
  have hkv : k < st.Votes.length := by omega
  have hbgd := phr_bloads_getD B.Wts B.Wts.sum st k hkv hk
  have hmem : st.bloads.getD k 0 ∈ st.bloads := by
    rw [List.getD_eq_getElem st.bloads 0 hk]
    exact List.getElem_mem _
  constructor
  · intro hnz
    rw [hbgd, if_neg hnz]
    exact ⟨rfl, hle _ hmem⟩
  · intro hzv
    rw [hbgd, if_pos hzv]

/-- Concrete instantiation of `claim_C8_phragmen_loads`: round 1 (0-based)
of `Phragmen` on the PAV example box, where every candidate has nonzero
support. -/
theorem claim_C8_phragmen_loads_witness :
    IsBBoxApproval wikiPAVBox = true ∧
    (∀ w ∈ wikiPAVBox.Wts, 0 ≤ w) ∧
    (∀ x ∈ candSums wikiPAVBox.Wts wikiPAVBox.Votes wikiPAVBox.Cands.length, x ≠ 0) ∧
    1 < wikiPAVBox.Cands.length ∧
    (∀ k, k < (phrStateAt wikiPAVBox.Wts wikiPAVBox.Wts.sum
        (phrInit wikiPAVBox ((candSums wikiPAVBox.Wts wikiPAVBox.Votes
          wikiPAVBox.Cands.length).map (fun x => 1 / x))) 1).bloads.length →
      (((phrStateAt wikiPAVBox.Wts wikiPAVBox.Wts.sum
          (phrInit wikiPAVBox ((candSums wikiPAVBox.Wts wikiPAVBox.Votes
            wikiPAVBox.Cands.length).map (fun x => 1 / x))) 1).Votes.getD k []).getD
          (phrRound wikiPAVBox.Wts wikiPAVBox.Wts.sum
            (phrStateAt wikiPAVBox.Wts wikiPAVBox.Wts.sum
              (phrInit wikiPAVBox ((candSums wikiPAVBox.Wts wikiPAVBox.Votes
                wikiPAVBox.Cands.length).map (fun x => 1 / x))) 1)).2.1 0 ≠ 0 →
        (phrRound wikiPAVBox.Wts wikiPAVBox.Wts.sum
            (phrStateAt wikiPAVBox.Wts wikiPAVBox.Wts.sum
              (phrInit wikiPAVBox ((candSums wikiPAVBox.Wts wikiPAVBox.Votes
                wikiPAVBox.Cands.length).map (fun x => 1 / x))) 1)).2.2.2.bloads.getD k 0 =
          (phrRound wikiPAVBox.Wts wikiPAVBox.Wts.sum
            (phrStateAt wikiPAVBox.Wts wikiPAVBox.Wts.sum
              (phrInit wikiPAVBox ((candSums wikiPAVBox.Wts wikiPAVBox.Votes
                wikiPAVBox.Cands.length).map (fun x => 1 / x))) 1)).2.2.1 ∧
        (phrStateAt wikiPAVBox.Wts wikiPAVBox.Wts.sum
            (phrInit wikiPAVBox ((candSums wikiPAVBox.Wts wikiPAVBox.Votes
              wikiPAVBox.Cands.length).map (fun x => 1 / x))) 1).bloads.getD k 0 ≤
          (phrRound wikiPAVBox.Wts wikiPAVBox.Wts.sum
            (phrStateAt wikiPAVBox.Wts wikiPAVBox.Wts.sum
              (phrInit wikiPAVBox ((candSums wikiPAVBox.Wts wikiPAVBox.Votes
                wikiPAVBox.Cands.length).map (fun x => 1 / x))) 1)).2.2.1) ∧
      (((phrStateAt wikiPAVBox.Wts wikiPAVBox.Wts.sum
          (phrInit wikiPAVBox ((candSums wikiPAVBox.Wts wikiPAVBox.Votes
            wikiPAVBox.Cands.length).map (fun x => 1 / x))) 1).Votes.getD k []).getD
          (phrRound wikiPAVBox.Wts wikiPAVBox.Wts.sum
            (phrStateAt wikiPAVBox.Wts wikiPAVBox.Wts.sum
              (phrInit wikiPAVBox ((candSums wikiPAVBox.Wts wikiPAVBox.Votes
                wikiPAVBox.Cands.length).map (fun x => 1 / x))) 1)).2.1 0 = 0 →
        (phrRound wikiPAVBox.Wts wikiPAVBox.Wts.sum
            (phrStateAt wikiPAVBox.Wts wikiPAVBox.Wts.sum
              (phrInit wikiPAVBox ((candSums wikiPAVBox.Wts wikiPAVBox.Votes
                wikiPAVBox.Cands.length).map (fun x => 1 / x))) 1)).2.2.2.bloads.getD k 0 =
          (phrStateAt wikiPAVBox.Wts wikiPAVBox.Wts.sum
            (phrInit wikiPAVBox ((candSums wikiPAVBox.Wts wikiPAVBox.Votes
              wikiPAVBox.Cands.length).map (fun x => 1 / x))) 1).bloads.getD k 0)) :=
  ⟨by decide, by decide, by decide, by decide,
    claim_C8_phragmen_loads wikiPAVBox (by decide) (by decide) (by decide) 1 (by decide)
      _ rfl _ rfl⟩

end PropAppvlPy
